import Mathlib

/-!
Verification of the sparse-matrix storage and preconditioning engine of pogs
(src/cpu/matrix/matrix_sparse.cpp) against its specification.

The development shallowly embeds the matrix state and its three operations
(Init, Mul, Equil), together with the helpers NormEst, MultDiag, MultRow and
MultCol from the same file.  Routines that the file consumes from elsewhere in
the project (gsl_spmat.h, gsl_spblas.h, equil_helper.h, util.h) are modelled
from the specification; each such definition carries a doc comment saying so.

Machine reals are modelled by ℝ (the claims about Equil speak about exact
arithmetic); the purely rational parts (construction, Init, Mul, MultDiag) are
polymorphic over a linear ordered field so that concrete scenarios can be
evaluated over ℚ by the kernel.
-/

namespace pogs

/-- The norm kinds of `NormTypes` (declared in matrix project headers; the
three constants kNorm1, kNorm2, kNormFro are the ones matrix_sparse.cpp uses). -/
inductive NormTypes where
  | kNorm1 : NormTypes
  | kNorm2 : NormTypes
  | kNormFro : NormTypes
deriving DecidableEq

/-- Storage orientation `MatrixSparse<T>::Ord` (ROW or COL). -/
inductive SpOrd where
  | ROW : SpOrd
  | COL : SpOrd
deriving DecidableEq

/-- File-scoped constant `kNormEquilibrate` (matrix_sparse.cpp line 17). -/
def kNormEquilibrate : NormTypes := NormTypes.kNorm2

/-- File-scoped constant `kNormNormalize` (matrix_sparse.cpp line 18). -/
def kNormNormalize : NormTypes := NormTypes.kNormFro

/-- Struct `CpuData`: references to the caller-supplied raw compressed input
(matrix_sparse.cpp lines 20-26), held until Init copies them. -/
structure CpuData (α : Type) where
  orig_data : List α
  orig_ptr : List ℕ
  orig_ind : List ℕ
deriving DecidableEq

/-- State of a `MatrixSparse<T>` object: dimensions, declared orientation,
caller input reference, the `_done_init` flag, and the three owned buffers
(`_data`, `_ind` of length 2*nnz and `_ptr` of length m+n+2 once Init ran). -/
structure MatrixSparse (α : Type) where
  m : ℕ
  n : ℕ
  nnz : ℕ
  ord : SpOrd
  info : CpuData α
  done_init : Bool
  data : List α
  ind : List ℕ
  ptr : List ℕ
deriving DecidableEq

variable {α : Type} [LinearOrderedField α]

/-- Constructor `MatrixSparse<T>::MatrixSparse` (lines 46-57).  The orientation
tag is checked by `ASSERT(ord == 'r' || ord == 'R' || ord == 'c' || ord == 'C')`;
ASSERT comes from util.h, which is not among the sources here, so its effect is
modelled from the spec (§7b): an invalid-argument error rejects the call
outright, rendered as `none`. -/
def matrixSparse (ordc : Char) (m n nnz : ℕ) (data : List α)
    (ptr ind : List ℕ) : Option (MatrixSparse α) :=
  if ordc = 'r' ∨ ordc = 'R' ∨ ordc = 'c' ∨ ordc = 'C' then
    some { m := m, n := n, nnz := nnz,
           ord := if ordc = 'r' ∨ ordc = 'R' then SpOrd.ROW else SpOrd.COL,
           info := ⟨data, ptr, ind⟩, done_init := false,
           data := [], ind := [], ptr := [] }
  else
    none

/-- The index range `[ptr t, ptr (t+1))` of bucket `t` of a compressed half. -/
def bucketRange (ptr : List ℕ) (t : ℕ) : List ℕ :=
  List.range' (ptr.getD t 0) (ptr.getD (t + 1) 0 - ptr.getD t 0)

/-- Logical triples `(bucket, secondary index, value)` of one compressed half
with `p` buckets: bucket `t` owns value/index positions `[ptr t, ptr (t+1))`.
For a row-compressed half this reads as (row, col, value); for a
column-compressed half as (col, row, value). -/
def csrTriples (vals : List α) (ind ptr : List ℕ) (p : ℕ) :
    List (ℕ × ℕ × α) :=
  (List.range p).flatMap fun t =>
    (bucketRange ptr t).map fun k => (t, ind.getD k 0, vals.getD k 0)

/-- Modelled from the spec: the conversion half of `gsl::spmat_memcpy`
(gsl_spmat.h is not among the sources).  Spec §4.1: build the opposite
compressed view by a counting-sort-style conversion — per-bucket counts,
prefix-sum offsets, stable scatter of values and indices.  The result is
(values, indices, offsets) of the opposite orientation with `s` buckets. -/
def transposeHalf (vals : List α) (ind ptr : List ℕ) (p s : ℕ) :
    List α × List ℕ × List ℕ :=
  let entries := csrTriples vals ind ptr p
  let sorted := (List.range s).flatMap fun j => entries.filter fun e => e.2.1 = j
  (sorted.map fun e => e.2.2,
   sorted.map fun e => e.1,
   (List.range (s + 1)).map fun j => (entries.filter fun e => e.2.1 < j).length)

/-- Method `MatrixSparse<T>::Init` (lines 95-125): rejected with status 1 when already
initialized; otherwise allocates the dual storage and copies the caller view
into the matching half while converting it into the opposite half
(`gsl::spmat_memcpy`, whose conversion is modelled from spec §4.1 via
`transposeHalf`).  Layout: values and secondary indices of the supplied
orientation occupy entries [0, nnz), the converted ones [nnz, 2*nnz); the
offsets of the supplied orientation come first in `ptr`. -/
def MatrixSparse.Init (s : MatrixSparse α) : ℕ × MatrixSparse α :=
  if s.done_init then (1, s)
  else
    match s.ord with
    | SpOrd.ROW =>
        let t := transposeHalf s.info.orig_data s.info.orig_ind s.info.orig_ptr
                   s.m s.n
        (0, { s with done_init := true,
                     data := s.info.orig_data ++ t.1,
                     ind := s.info.orig_ind ++ t.2.1,
                     ptr := s.info.orig_ptr ++ t.2.2 })
    | SpOrd.COL =>
        let t := transposeHalf s.info.orig_data s.info.orig_ind s.info.orig_ptr
                   s.n s.m
        (0, { s with done_init := true,
                     data := s.info.orig_data ++ t.1,
                     ind := s.info.orig_ind ++ t.2.1,
                     ptr := s.info.orig_ptr ++ t.2.2 })

/-- The row-compressed half (values, column indices, row offsets) of an
initialized matrix: the first half of the buffers for a ROW matrix, the second
half for a COL matrix. -/
def MatrixSparse.csrArrays (s : MatrixSparse α) : List α × List ℕ × List ℕ :=
  match s.ord with
  | SpOrd.ROW => (s.data.take s.nnz, s.ind.take s.nnz, s.ptr.take (s.m + 1))
  | SpOrd.COL => (s.data.drop s.nnz, s.ind.drop s.nnz, s.ptr.drop (s.n + 1))

/-- The column-compressed half (values, row indices, column offsets). -/
def MatrixSparse.cscArrays (s : MatrixSparse α) : List α × List ℕ × List ℕ :=
  match s.ord with
  | SpOrd.ROW => (s.data.drop s.nnz, s.ind.drop s.nnz, s.ptr.drop (s.m + 1))
  | SpOrd.COL => (s.data.take s.nnz, s.ind.take s.nnz, s.ptr.take (s.n + 1))

/-- Logical (row, col, value) triples of the row-compressed half. -/
def MatrixSparse.rowTriples (s : MatrixSparse α) : List (ℕ × ℕ × α) :=
  csrTriples s.csrArrays.1 s.csrArrays.2.1 s.csrArrays.2.2 s.m

/-- Logical (col, row, value) triples of the column-compressed half. -/
def MatrixSparse.colTriples (s : MatrixSparse α) : List (ℕ × ℕ × α) :=
  csrTriples s.cscArrays.1 s.cscArrays.2.1 s.cscArrays.2.2 s.n

/-- Swap the bucket and secondary coordinates of a logical triple. -/
def swapRC (e : ℕ × ℕ × α) : ℕ × ℕ × α := (e.2.1, e.1, e.2.2)

/-- Invariant of §3: both halves represent the same multiset of logical
(row, col, value) triples. -/
def MatrixSparse.halvesConsistent (s : MatrixSparse α) : Prop :=
  s.rowTriples.Perm (s.colTriples.map swapRC)

/-- Modelled from the spec: `gsl::spblas_gemv` walking one compressed half
directly (gsl_spblas.h is not among the sources; spec §2 gives the GEMV
contract `y := alpha*op(A)*x + beta*y` and §4.2 says each orientation walks the
matching compressed half without re-sorting).  For the half with `p` buckets:
`y_i := beta*y_i + alpha * Σ_{k in bucket i} vals_k * x_{ind_k}`. -/
def gemvCsr (vals : List α) (ind ptr : List ℕ) (p : ℕ) (a : α) (x : List α)
    (b : α) (y : List α) : List α :=
  (List.range p).map fun i =>
    b * y.getD i 0 +
      a * ((bucketRange ptr i).map fun k =>
              vals.getD k 0 * x.getD (ind.getD k 0) 0).sum

/-- Method `MatrixSparse<T>::Mul` (lines 128-153): status 1 with no write to `y` when
not initialized; otherwise `y := alpha*op(A)*x + beta*y`, where a 'n'/'N' flag
walks the row-compressed half (y gets length m) and any other flag (the code's
ternary sends everything else, in particular 't'/'T', to CblasTrans) walks the
column-compressed half (y gets length n). -/
def MatrixSparse.Mul (s : MatrixSparse α) (trans : Char) (a : α) (x : List α)
    (b : α) (y : List α) : ℕ × List α :=
  if !s.done_init then (1, y)
  else if trans = 'n' ∨ trans = 'N' then
    (0, gemvCsr s.csrArrays.1 s.csrArrays.2.1 s.csrArrays.2.2 s.m a x b y)
  else
    (0, gemvCsr s.cscArrays.1 s.cscArrays.2.1 s.cscArrays.2.2 s.n a x b y)

/-- Reference semantics of `op(A) * x` at coordinate `i`, for a matrix given as
a list of logical (bucket, secondary, value) triples: the sum of
`v * x_{secondary}` over the triples whose bucket is `i`. -/
def applyTriples (tr : List (ℕ × ℕ × α)) (x : List α) (i : ℕ) : α :=
  (tr.map fun e => if e.1 = i then e.2.2 * x.getD e.2.1 0 else 0).sum

/-- Logical (row, col, value) triples described by the caller-supplied
compressed input of a matrix (its meaning per §4.1: a compressed-row or
compressed-column triple plus an orientation tag). -/
def inputTriples (s : MatrixSparse α) : List (ℕ × ℕ × α) :=
  match s.ord with
  | SpOrd.ROW => csrTriples s.info.orig_data s.info.orig_ind s.info.orig_ptr s.m
  | SpOrd.COL =>
      (csrTriples s.info.orig_data s.info.orig_ind s.info.orig_ptr s.n).map swapRC

/-- Well-formedness of one compressed half with `p` buckets, secondary
dimension `q` and `nnzc` entries (§4.1 precondition: offsets of length
`p+1`, monotonically nondecreasing from 0 to nnz, indices within bounds). -/
structure HalfWF (p q nnzc : ℕ) (vals : List α) (ind ptr : List ℕ) : Prop where
  vals_len : vals.length = nnzc
  ind_len : ind.length = nnzc
  ptr_len : ptr.length = p + 1
  ptr_zero : ptr.getD 0 0 = 0
  ptr_last : ptr.getD p 0 = nnzc
  ptr_mono : ∀ t < p, ptr.getD t 0 ≤ ptr.getD (t + 1) 0
  ind_bound : ∀ k < nnzc, ind.getD k 0 < q

/-- Well-formedness of the caller-supplied compressed input (§4.1
precondition), relative to the declared orientation. -/
def WFInput (s : MatrixSparse α) : Prop :=
  match s.ord with
  | SpOrd.ROW => HalfWF s.m s.n s.nnz s.info.orig_data s.info.orig_ind s.info.orig_ptr
  | SpOrd.COL => HalfWF s.n s.m s.nnz s.info.orig_data s.info.orig_ind s.info.orig_ptr

/-- Structural well-formedness of an initialized matrix state: buffer lengths
as in §3 and both compressed halves well-formed. -/
structure WFState (s : MatrixSparse α) : Prop where
  data_len : s.data.length = 2 * s.nnz
  ind_len : s.ind.length = 2 * s.nnz
  ptr_len : s.ptr.length = s.m + s.n + 2
  csr : HalfWF s.m s.n s.nnz s.csrArrays.1 s.csrArrays.2.1 s.csrArrays.2.2
  csc : HalfWF s.n s.m s.nnz s.cscArrays.1 s.cscArrays.2.1 s.cscArrays.2.2

/-- Map a function receiving the position over a list (explicit index-carrying
recursion; used to render the element loops of the sign codec). -/
def idxMap {β : Type} (g : ℕ → β → β) : ℕ → List β → List β
  | _, [] => []
  | k, v :: rest => g k v :: idxMap g (k + 1) rest

/-- Generic in-place bucketed update loop: for each bucket `t < size` in
ascending order, every position `i` in `[ptr t, ptr (t+1))` is overwritten by
`g t i` applied to its current contents.  `MultRow` and `MultCol`
(lines 266-287) are instances. -/
def setLoop (g : ℕ → ℕ → α → α) (data : List α) (ptr : List ℕ) :
    ℕ → List α
  | 0 => data
  | size + 1 =>
      (bucketRange ptr size).foldl
        (fun d2 i => d2.set i (g size i (d2.getD i 0)))
        (setLoop g data ptr size)

/-- Helper `MultRow` (lines 266-275): `data[i] *= d[t] * e[col_ind[i]]` over every
row bucket `t < size`. -/
def multRowLoop (d e : List α) (data : List α) (ptr ind : List ℕ)
    (size : ℕ) : List α :=
  setLoop (fun t i v => v * (d.getD t 0 * e.getD (ind.getD i 0) 0)) data ptr size

/-- Helper `MultCol` (lines 277-287): `data[i] *= d[row_ind[i]] * e[t]` over every
column bucket `t < size`. -/
def multColLoop (d e : List α) (data : List α) (ptr ind : List ℕ)
    (size : ℕ) : List α :=
  setLoop (fun t i v => v * (d.getD (ind.getD i 0) 0 * e.getD t 0)) data ptr size

/-- Helper `MultDiag` (lines 289-300): apply `A := diag(d) * A * diag(e)` to both
compressed halves in place. -/
def multDiag (d e : List α) (m n nnz : ℕ) (ord : SpOrd) (data : List α)
    (ind ptr : List ℕ) : List α :=
  match ord with
  | SpOrd.ROW =>
      multRowLoop d e (data.take nnz) (ptr.take (m + 1)) (ind.take nnz) m ++
      multColLoop d e (data.drop nnz) (ptr.drop (m + 1)) (ind.drop nnz) n
  | SpOrd.COL =>
      multColLoop d e (data.take nnz) (ptr.take (n + 1)) (ind.take nnz) n ++
      multRowLoop d e (data.drop nnz) (ptr.drop (n + 1)) (ind.drop nnz) m

end pogs

namespace pogs

noncomputable section

/-- Functor `SquareF` of equil_helper.h: squaring. -/
def SquareF (x : ℝ) : ℝ := x * x

/-- Functor `AbsF` of equil_helper.h: absolute value. -/
def AbsF (x : ℝ) : ℝ := |x|

/-- Functor `SqrtF` of equil_helper.h: square root. -/
def SqrtF (x : ℝ) : ℝ := Real.sqrt x

/-- Functor `IdentityF` of equil_helper.h: identity. -/
def IdentityF (x : ℝ) : ℝ := x

/-- One packed sign byte: bit `i` (weight `2^i`) is set exactly when entry
`base + i` of the value buffer is negative, for `i < len` (`len = 8` for the
bulk path, the remaining bit count for the tail path). -/
def signByte (data : List ℝ) (base len : ℕ) : ℕ :=
  ((List.range len).map fun i =>
    if data.getD (base + i) 0 < 0 then 2 ^ i else 0).sum

/-- Modelled from the spec: the sign-bit packing of `SetSign`
(equil_helper.h is not among the sources; spec §4.3 records the sign of each
entry as one bit, 0 = nonnegative, 1 = negative, 8 entries per byte). -/
def setSignBytes (data : List ℝ) (numChars : ℕ) : List ℕ :=
  (List.range numChars).map fun t => signByte data (8 * t) 8

/-- Modelled from the spec: the value overwrite of `SetSign`/`SetSignSingle`
(spec §4.3): every entry in `[lo, hi)` is replaced by `f(|entry|)`. -/
def setSignDataChunk (f : ℝ → ℝ) (data : List ℝ) (lo hi : ℕ) : List ℝ :=
  idxMap (fun k v => if lo ≤ k ∧ k < hi then f |v| else v) 0 data

/-- Bit `k mod 8` of byte `k / 8` of a packed sign buffer. -/
def bitOf (sign : List ℕ) (k : ℕ) : ℕ :=
  sign.getD (k / 8) 0 / 2 ^ (k % 8) % 2

/-- Modelled from the spec: the value restore of `UnSetSign`/`UnSetSignSingle`
(spec §4.3): every entry in `[lo, hi)` is replaced by `(1 - 2*bit) * f(entry)`,
restoring the recorded sign after applying `f`. -/
def unSetSignDataChunk (f : ℝ → ℝ) (sign : List ℕ) (data : List ℝ)
    (lo hi : ℕ) : List ℝ :=
  idxMap (fun k v =>
    if lo ≤ k ∧ k < hi then (1 - 2 * (bitOf sign k : ℝ)) * f v else v) 0 data

/-- The full packed sign buffer over `numEl` entries, as Equil builds it
(lines 166-188): `numEl / 8` bulk bytes from `SetSign`, plus one tail byte from
`SetSignSingle` when `numEl` is not a multiple of 8. -/
def signFull (data : List ℝ) (numEl : ℕ) : List ℕ :=
  setSignBytes data (numEl / 8) ++
    (if 8 * (numEl / 8) < numEl then
      [signByte data (8 * (numEl / 8)) (numEl - 8 * (numEl / 8))]
    else [])

/-- The full forward value transform over `numEl` entries: bulk chunk
`[0, 8*(numEl/8))` then tail chunk `[8*(numEl/8), numEl)`. -/
def setSignDataFull (f : ℝ → ℝ) (data : List ℝ) (numEl : ℕ) : List ℝ :=
  setSignDataChunk f (setSignDataChunk f data 0 (8 * (numEl / 8)))
    (8 * (numEl / 8)) numEl

/-- The full backward value transform over `numEl` entries: bulk chunk then
tail chunk, reading the packed sign buffer. -/
def unSetSignDataFull (f : ℝ → ℝ) (sign : List ℕ) (data : List ℝ)
    (numEl : ℕ) : List ℝ :=
  unSetSignDataChunk f sign (unSetSignDataChunk f sign data 0 (8 * (numEl / 8)))
    (8 * (numEl / 8)) numEl

/-- Modelled from the spec: `gsl::blas_nrm2`, the Euclidean norm of a vector
view (backend contract, spec §2). -/
def nrm2 (v : List ℝ) : ℝ := Real.sqrt ((v.map fun x => x * x).sum)

/-- Modelled from the spec: `Norm2Est` (equil_helper.h is not among the
sources), a power-iteration estimate of the spectral norm (spec §4.6),
iterating `x := Aᵀ(A x)` from the all-ones vector and reporting the fourth
root of the Rayleigh growth of the last step. -/
def norm2Est (s : MatrixSparse ℝ) : ℝ :=
  let step : List ℝ → List ℝ := fun x =>
    (s.Mul 't' 1 ((s.Mul 'n' 1 x 0 (List.replicate s.m 0)).2) 0
      (List.replicate s.n 0)).2
  let x := step^[20] (List.replicate s.n 1)
  Real.sqrt (Real.sqrt ((nrm2 (step x)) / nrm2 x))

/-- Helper `NormEst` (matrix_sparse.cpp lines 246-263): a 2-norm request delegates to
`Norm2Est`; a Frobenius request returns the 2-norm of the first `Nnz()` entries
of the value buffer divided by `sqrt(min(Rows(), Cols()))`; anything else
(kNorm1) hits `ASSERT(false)` — util.h is not among the sources, so the
assertion's effect is modelled from the spec (§7b: unsupported norm kinds are
rejected outright), rendered as `none`. -/
def normEst (nt : NormTypes) (s : MatrixSparse ℝ) : Option ℝ :=
  match nt with
  | NormTypes.kNorm2 => some (norm2Est s)
  | NormTypes.kNormFro =>
      some (nrm2 (s.data.take s.nnz) / Real.sqrt (min s.m s.n : ℕ))
  | NormTypes.kNorm1 => none

/-- Row aggregates of the scaled matrix diag(d) * A * diag(e), read from the
row-compressed half. -/
def rowAggregates (s : MatrixSparse ℝ) (d e : List ℝ) : List ℝ :=
  (List.range s.m).map fun i =>
    ((bucketRange s.csrArrays.2.2 i).map fun k =>
      d.getD i 0 * s.csrArrays.1.getD k 0 *
        e.getD (s.csrArrays.2.1.getD k 0) 0).sum

/-- Column aggregates of the scaled matrix, read from the column-compressed
half. -/
def colAggregates (s : MatrixSparse ℝ) (d e : List ℝ) : List ℝ :=
  (List.range s.n).map fun j =>
    ((bucketRange s.cscArrays.2.2 j).map fun k =>
      d.getD (s.cscArrays.2.1.getD k 0) 0 * s.cscArrays.1.getD k 0 *
        e.getD j 0).sum

/-- Modelled from the spec: one alternating Sinkhorn-Knopp pass (spec §4.4
step 2; SinkhornKnopp lives in equil_helper.h, which is not among the
sources): update `d[i] *= target / rowAggregate[i]` with target 1, then
`e[j] *= target / colAggregate[j]` against the updated d. -/
def sinkhornPass (s : MatrixSparse ℝ) (de : List ℝ × List ℝ) :
    List ℝ × List ℝ :=
  let d2 := (List.range s.m).map fun i =>
    de.1.getD i 0 * (1 / (rowAggregates s de.1 de.2).getD i 0)
  let e2 := (List.range s.n).map fun j =>
    de.2.getD j 0 * (1 / (colAggregates s d2 de.2).getD j 0)
  (d2, e2)

/-- Recognized default iteration cap for Sinkhorn-Knopp (spec §9: a
solver-tuned configuration constant). -/
def kEquilIter : ℕ := 10

/-- Iterated Sinkhorn-Knopp passes from the all-ones scales. -/
def sinkhornLoop (s : MatrixSparse ℝ) : ℕ → List ℝ × List ℝ
  | 0 => (List.replicate s.m 1, List.replicate s.n 1)
  | k + 1 => sinkhornPass s (sinkhornLoop s k)

/-- Modelled from the spec: `SinkhornKnopp(A, d, e)` (spec §4.4 step 2):
initialize d, e to ones and run the alternating scaling for the configured
number of iterations, reading but not modifying the matrix. -/
def sinkhornKnopp (s : MatrixSparse ℝ) : List ℝ × List ℝ :=
  sinkhornLoop s kEquilIter

/-- Equil stage 1 (lines 170-188): sign-extract and transform every physical
entry, squaring when 2-norm/Frobenius equilibration is configured
(kNormEquilibrate), taking absolute values otherwise; bulk bytes first, then
the non-multiple-of-8 tail. -/
def equilData1 (s : MatrixSparse ℝ) : List ℝ :=
  if kNormEquilibrate = NormTypes.kNorm2 ∨ kNormEquilibrate = NormTypes.kNormFro
  then setSignDataFull SquareF s.data (2 * s.nnz)
  else setSignDataFull AbsF s.data (2 * s.nnz)

/-- The packed sign buffer Equil builds (lines 166-188). -/
def equilSign (s : MatrixSparse ℝ) : List ℕ := signFull s.data (2 * s.nnz)

/-- Equil stage 3 (lines 193-210): restore signs, applying square root in the
2-norm/Frobenius case and identity otherwise; bulk bytes then tail. -/
def equilData2 (s : MatrixSparse ℝ) : List ℝ :=
  if kNormEquilibrate = NormTypes.kNorm2 ∨ kNormEquilibrate = NormTypes.kNormFro
  then unSetSignDataFull SqrtF (equilSign s) (equilData1 s) (2 * s.nnz)
  else unSetSignDataFull IdentityF (equilSign s) (equilData1 s) (2 * s.nnz)

/-- Equil stages 2 and 4 (lines 190-216): run Sinkhorn-Knopp on the
transformed matrix, then take elementwise square roots of d and e in the
2-norm/Frobenius case. -/
def equilD2E2 (s : MatrixSparse ℝ) : List ℝ × List ℝ :=
  let de := sinkhornKnopp { s with data := equilData1 s }
  if kNormEquilibrate = NormTypes.kNorm2 ∨ kNormEquilibrate = NormTypes.kNormFro
  then (de.1.map SqrtF, de.2.map SqrtF)
  else de

/-- Equil stage 5 (line 219): `A := D * A * E` across both halves, applied to
the restored values. -/
def equilData3 (s : MatrixSparse ℝ) : List ℝ :=
  multDiag (equilD2E2 s).1 (equilD2E2 s).2 s.m s.n s.nnz s.ord (equilData2 s)
    s.ind s.ptr

/-- The global normalization scalar `normA` of Equil (line 222): the
kNormNormalize-norm estimate of the scaled matrix. -/
def equilNormA (s : MatrixSparse ℝ) : ℝ :=
  (normEst kNormNormalize { s with data := equilData3 s }).getD 0

/-- Method `MatrixSparse<T>::Equil` (lines 155-238): status 1 with no mutation when
not initialized; otherwise sign-extract/transform, Sinkhorn-Knopp, sign
restore, square-root of d and e, diagonal scaling, and global renormalization
of A by `1/normA` and of d, e by `1/sqrt(normA)`. -/
def MatrixSparse.Equil (s : MatrixSparse ℝ) (d e : List ℝ) :
    ℕ × MatrixSparse ℝ × List ℝ × List ℝ :=
  if !s.done_init then (1, s, d, e)
  else
    (0, { s with data := ((equilData3 s).map (fun v => v * (1 / equilNormA s))) },
        (equilD2E2 s).1.map fun v => v * (1 / Real.sqrt (equilNormA s)),
        (equilD2E2 s).2.map fun v => v * (1 / Real.sqrt (equilNormA s)))

/-- Concrete example: a freshly constructed (not yet initialized) 1-by-1
matrix holding the single value 1, supplied row-compressed. -/
def exMat : MatrixSparse ℝ :=
  ⟨1, 1, 1, SpOrd.ROW, ⟨[1], [0, 1], [0]⟩, false, [], [], []⟩

/-- Concrete example: the state of `exMat` after Init. -/
def exS : MatrixSparse ℝ :=
  ⟨1, 1, 1, SpOrd.ROW, ⟨[1], [0, 1], [0]⟩, true, [1, 1], [0, 0], [0, 1, 0, 1]⟩

/-- Concrete example: the §8 scenario of the spec, a freshly constructed
2-by-2 matrix with nnz 3, row-compressed values [4,2,3], offsets [0,2,3],
column indices [0,1,1]. -/
def exMat2 : MatrixSparse ℝ :=
  ⟨2, 2, 3, SpOrd.ROW, ⟨[4, 2, 3], [0, 2, 3], [0, 1, 1]⟩, false, [], [], []⟩

end

end pogs

/-! ## Generic list lemmas -/

namespace pogs

variable {α : Type} [LinearOrderedField α] {β : Type} {γ : Type}

theorem getD_map_lt (f : β → γ) (l : List β) {k : ℕ} (h : k < l.length)
    (d : γ) (d' : β) : (l.map f).getD k d = f (l.getD k d') := by
  simp [List.getD_eq_getElem?_getD, List.getElem?_map,
    List.getElem?_eq_getElem h]

theorem getD_take_lt (l : List β) {n k : ℕ} (h : k < n) (d : β) :
    (l.take n).getD k d = l.getD k d := by
  simp [List.getD_eq_getElem?_getD, List.getElem?_take, h]

theorem getD_drop (l : List β) (n k : ℕ) (d : β) :
    (l.drop n).getD k d = l.getD (n + k) d := by
  simp [List.getD_eq_getElem?_getD, List.getElem?_drop]

theorem getD_append_lt (l l' : List β) {k : ℕ} (h : k < l.length) (d : β) :
    (l ++ l').getD k d = l.getD k d :=
  List.getD_append l l' d k h

theorem getD_append_ge (l l' : List β) {k : ℕ} (h : l.length ≤ k) (d : β) :
    (l ++ l').getD k d = l'.getD (k - l.length) d :=
  List.getD_append_right l l' d k h

theorem getD_range_lt {n k : ℕ} (h : k < n) (d : ℕ) :
    (List.range n).getD k d = k := by
  rw [List.getD_eq_getElem (List.range n) d (by simpa using h)]
  simp

theorem getD_range_map_lt (f : ℕ → γ) {n k : ℕ} (h : k < n) (d : γ) :
    ((List.range n).map f).getD k d = f k := by
  rw [getD_map_lt f _ (by simpa using h) d 0, getD_range_lt h]

theorem sum_flatMap_eq {M : Type} [AddCommMonoid M] (l : List β)
    (f : β → List M) :
    (l.flatMap f).sum = (l.map fun a => (f a).sum).sum := by
  rw [List.flatMap_def, List.sum_flatten, List.map_map]
  rfl

theorem sum_ite_range {M : Type} [AddCommMonoid M] {p i : ℕ} (hi : i < p)
    (A : ℕ → M) :
    ((List.range p).map fun t => if t = i then A t else 0).sum = A i := by
  induction p with
  | zero => omega
  | succ q ih =>
    rw [List.range_succ, List.map_append, List.sum_append]
    rcases Nat.lt_or_ge i q with h | h
    · rw [ih h]
      have : ¬ (q = i) := by omega
      simp [this]
    · have hiq : i = q := by omega
      subst hiq
      have hz : ((List.range i).map fun t => if t = i then A t else 0).sum = 0 := by
        apply List.sum_eq_zero
        intro x hx
        rw [List.mem_map] at hx
        obtain ⟨t, ht, rfl⟩ := hx
        rw [List.mem_range] at ht
        rw [if_neg (by omega)]
      rw [hz]
      simp

theorem mem_bucketRange {ptr : List ℕ} {t k : ℕ} (h : k ∈ bucketRange ptr t) :
    ptr.getD t 0 ≤ k ∧ k < ptr.getD (t + 1) 0 := by
  rw [bucketRange, List.mem_range'_1] at h
  omega

theorem applyTriples_csr (vals : List α) (ind ptr : List ℕ) (p : ℕ)
    (x : List α) {i : ℕ} (hi : i < p) :
    applyTriples (csrTriples vals ind ptr p) x i =
      ((bucketRange ptr i).map fun k =>
        vals.getD k 0 * x.getD (ind.getD k 0) 0).sum := by
  unfold applyTriples csrTriples
  rw [List.map_flatMap, sum_flatMap_eq]
  have hcongr : ∀ t ∈ List.range p,
      ((List.map (fun e : ℕ × ℕ × α =>
          if e.1 = i then e.2.2 * x.getD e.2.1 0 else 0)
        ((bucketRange ptr t).map fun k =>
          (t, ind.getD k 0, vals.getD k 0)))).sum =
        if t = i then ((bucketRange ptr t).map fun k =>
          vals.getD k 0 * x.getD (ind.getD k 0) 0).sum else 0 := by
    intro t _
    rw [List.map_map]
    by_cases h : t = i
    · subst h
      rw [if_pos rfl]
      apply congrArg
      apply List.map_congr_left
      intro k _
      simp
    · simp only [if_neg h]
      apply List.sum_eq_zero
      intro v hv
      rw [List.mem_map] at hv
      obtain ⟨k, _, rfl⟩ := hv
      simp [h]
  rw [List.map_congr_left hcongr, sum_ite_range hi]

theorem applyTriples_perm {tr1 tr2 : List (ℕ × ℕ × α)} (h : tr1.Perm tr2)
    (x : List α) (i : ℕ) : applyTriples tr1 x i = applyTriples tr2 x i :=
  List.Perm.sum_eq (List.Perm.map _ h)

theorem gemvCsr_eq_applyTriples (vals : List α) (ind ptr : List ℕ) (p : ℕ)
    (a : α) (x : List α) (b : α) (y : List α) :
    gemvCsr vals ind ptr p a x b y =
      (List.range p).map fun i =>
        b * y.getD i 0 + a * applyTriples (csrTriples vals ind ptr p) x i := by
  unfold gemvCsr
  apply List.map_congr_left
  intro i hi
  rw [List.mem_range] at hi
  rw [applyTriples_csr vals ind ptr p x hi]

theorem flatMap_filter_perm (key : β → ℕ) :
    ∀ (s : ℕ) (tr : List β), (∀ e ∈ tr, key e < s) →
      ((List.range s).flatMap fun j => tr.filter fun e => key e = j).Perm tr := by
  intro s
  induction s with
  | zero =>
    intro tr h
    have htr : tr = [] := by
      cases tr with
      | nil => rfl
      | cons a l => exact absurd (h a (by simp)) (by omega)
    subst htr
    simp
  | succ q ih =>
    intro tr h
    rw [List.range_succ, List.flatMap_append]
    have h1 : ((List.range q).flatMap fun j => tr.filter fun e => key e = j) =
        ((List.range q).flatMap fun j =>
          (tr.filter fun e => key e < q).filter fun e => key e = j) := by
      rw [List.flatMap_def, List.flatMap_def]
      congr 1
      apply List.map_congr_left
      intro j hj
      rw [List.mem_range] at hj
      rw [List.filter_filter]
      apply List.filter_congr
      intro e _
      by_cases hk : key e = j
      · simp [hk, hj]
      · simp [hk]
    rw [h1]
    have h2 := ih (tr.filter fun e => key e < q) (by
      intro e he
      rw [List.mem_filter] at he
      simpa using he.2)
    have h3 : ([q].flatMap fun j => tr.filter fun e => key e = j) =
        tr.filter fun e => key e = q := by simp
    rw [h3]
    refine (h2.append_right _).trans ?_
    have h4 : (tr.filter fun e => key e = q) =
        tr.filter fun e => !(decide (key e < q)) := by
      apply List.filter_congr
      intro e he
      have hb := h e he
      by_cases hk : key e = q
      · simp [hk]
      · have : key e < q := by omega
        simp [hk, this]
    rw [h4]
    exact List.filter_append_perm _ tr

theorem idxMap_length (g : ℕ → β → β) :
    ∀ (n : ℕ) (l : List β), (idxMap g n l).length = l.length := by
  intro n l
  induction l generalizing n with
  | nil => rfl
  | cons v rest ih => simp [idxMap, ih]

theorem idxMap_getD (g : ℕ → β → β) (d : β) :
    ∀ (n : ℕ) (l : List β) (k : ℕ), k < l.length →
      (idxMap g n l).getD k d = g (n + k) (l.getD k d) := by
  intro n l
  induction l generalizing n with
  | nil => intro k hk; simp at hk
  | cons v rest ih =>
    intro k hk
    cases k with
    | zero => simp [idxMap]
    | succ k2 =>
      have hr : k2 < rest.length := by simpa using hk
      have : n + (k2 + 1) = (n + 1) + k2 := by omega
      simp only [idxMap, List.getD_cons_succ, this]
      exact ih (n + 1) k2 hr

theorem sum_pow_range (j : ℕ) :
    ((List.range j).map fun i => 2 ^ i).sum = 2 ^ j - 1 := by
  induction j with
  | zero => simp
  | succ q ih =>
    rw [List.range_succ, List.map_append, List.sum_append, ih]
    have h1 : 1 ≤ 2 ^ q := Nat.one_le_two_pow
    have h2 : (2 : ℕ) ^ (q + 1) = 2 ^ q + 2 ^ q := by ring
    simp
    omega

theorem testBit_sum (len j : ℕ) (hj : j < len) (P : ℕ → Prop)
    [DecidablePred P] :
    ((List.range len).map fun i => if P i then 2 ^ i else 0).sum / 2 ^ j % 2 =
      if P j then 1 else 0 := by
  have hsplit : List.range len =
      List.range j ++ (j :: List.range' (j + 1) (len - (j + 1))) := by
    rw [List.range_eq_range', List.range_eq_range']
    have e1 : List.range' 0 j ++ List.range' (0 + 1 * j) (len - j) =
        List.range' 0 (len - j + j) := List.range'_append 0 j (len - j) 1
    have e2 : len - j + j = len := by omega
    have e3 : 0 + 1 * j = j := by omega
    rw [e2, e3] at e1
    rw [← e1]
    congr 1
    have e4 : len - j = (len - (j + 1)) + 1 := by omega
    rw [e4, List.range'_succ]
  rw [hsplit]
  rw [List.map_append, List.sum_append, List.map_cons, List.sum_cons]
  set S1 := ((List.range j).map fun i => if P i then 2 ^ i else 0).sum with hS1
  set S2 := ((List.range' (j + 1) (len - (j + 1))).map
      fun i => if P i then 2 ^ i else 0).sum with hS2
  have hS1lt : S1 < 2 ^ j := by
    have hle : S1 ≤ ((List.range j).map fun i => 2 ^ i).sum := by
      apply List.sum_le_sum
      intro i _
      by_cases h : P i
      · rw [if_pos h]
      · rw [if_neg h]; exact Nat.zero_le _
    rw [sum_pow_range] at hle
    have : 1 ≤ 2 ^ j := Nat.one_le_two_pow
    omega
  have hS2dvd : 2 ^ (j + 1) ∣ S2 := by
    apply List.dvd_sum
    intro v hv
    rw [List.mem_map] at hv
    obtain ⟨i, hi, rfl⟩ := hv
    rw [List.mem_range'_1] at hi
    by_cases h : P i
    · rw [if_pos h]; exact pow_dvd_pow 2 hi.1
    · rw [if_neg h]; exact Dvd.intro 0 rfl
  obtain ⟨M, hM⟩ := hS2dvd
  set cb : ℕ := if P j then 1 else 0 with hcb
  have hcbj : (if P j then 2 ^ j else 0) = cb * 2 ^ j := by
    by_cases h : P j <;> simp [hcb, h]
  rw [hcbj, hM]
  have harith : S1 + (cb * 2 ^ j + 2 ^ (j + 1) * M) =
      S1 + (cb + 2 * M) * 2 ^ j := by ring
  rw [harith]
  rw [Nat.add_mul_div_right _ _ (Nat.pos_pow_of_pos j (by omega)),
    Nat.div_eq_of_lt hS1lt]
  have : cb + 2 * M = cb + M * 2 := by ring
  rw [this]
  simp only [Nat.zero_add]
  rw [Nat.add_mul_mod_self_right]
  by_cases h : P j <;> simp [hcb, h]

theorem setSignBytes_length (data : List ℝ) (nc : ℕ) :
    (setSignBytes data nc).length = nc := by
  simp [setSignBytes]

theorem bitOf_signFull (data : List ℝ) (numEl k : ℕ) (hk : k < numEl) :
    bitOf (signFull data numEl) k = if data.getD k 0 < 0 then 1 else 0 := by
  have hnc1 : 8 * (numEl / 8) ≤ numEl := by omega
  have hnc2 : numEl < 8 * (numEl / 8) + 8 := by omega
  rcases lt_or_ge k (8 * (numEl / 8)) with h | h
  · have hk8 : k / 8 < numEl / 8 := by omega
    rw [bitOf, signFull,
      getD_append_lt _ _ (by rw [setSignBytes_length]; exact hk8),
      setSignBytes, getD_range_map_lt _ hk8, signByte,
      testBit_sum 8 (k % 8) (by omega)]
    have : 8 * (k / 8) + k % 8 = k := by omega
    rw [this]
  · have hdiv : k / 8 = numEl / 8 := by omega
    have htail : 8 * (numEl / 8) < numEl := by omega
    rw [bitOf, signFull, if_pos htail,
      getD_append_ge _ _ (by rw [setSignBytes_length]; omega)]
    rw [setSignBytes_length, hdiv, Nat.sub_self]
    simp only [List.getD_cons_zero]
    rw [signByte, testBit_sum (numEl - 8 * (numEl / 8)) (k % 8) (by omega)]
    have : 8 * (numEl / 8) + k % 8 = k := by omega
    rw [this]

theorem setSignDataChunk_length (f : ℝ → ℝ) (data : List ℝ) (lo hi : ℕ) :
    (setSignDataChunk f data lo hi).length = data.length :=
  idxMap_length _ 0 data

theorem unSetSignDataChunk_length (f : ℝ → ℝ) (sign : List ℕ)
    (data : List ℝ) (lo hi : ℕ) :
    (unSetSignDataChunk f sign data lo hi).length = data.length :=
  idxMap_length _ 0 data

theorem setSignDataFull_length (f : ℝ → ℝ) (data : List ℝ) (numEl : ℕ) :
    (setSignDataFull f data numEl).length = data.length := by
  rw [setSignDataFull, setSignDataChunk_length, setSignDataChunk_length]

theorem unSetSignDataFull_length (f : ℝ → ℝ) (sign : List ℕ)
    (data : List ℝ) (numEl : ℕ) :
    (unSetSignDataFull f sign data numEl).length = data.length := by
  rw [unSetSignDataFull, unSetSignDataChunk_length, unSetSignDataChunk_length]

theorem setSignDataChunk_getD (f : ℝ → ℝ) (data : List ℝ) (lo hi k : ℕ)
    (hk : k < data.length) :
    (setSignDataChunk f data lo hi).getD k 0 =
      if lo ≤ k ∧ k < hi then f |data.getD k 0| else data.getD k 0 := by
  rw [setSignDataChunk, idxMap_getD _ 0 0 data k hk]
  simp

theorem unSetSignDataChunk_getD (f : ℝ → ℝ) (sign : List ℕ) (data : List ℝ)
    (lo hi k : ℕ) (hk : k < data.length) :
    (unSetSignDataChunk f sign data lo hi).getD k 0 =
      if lo ≤ k ∧ k < hi then (1 - 2 * (bitOf sign k : ℝ)) * f (data.getD k 0)
      else data.getD k 0 := by
  rw [unSetSignDataChunk, idxMap_getD _ 0 0 data k hk]
  simp

theorem setSignDataFull_getD (f : ℝ → ℝ) (data : List ℝ) (numEl k : ℕ)
    (hlen : data.length = numEl) (hk : k < numEl) :
    (setSignDataFull f data numEl).getD k 0 = f |data.getD k 0| := by
  have hk1 : k < data.length := by omega
  have hk2 : k < (setSignDataChunk f data 0 (8 * (numEl / 8))).length := by
    rw [setSignDataChunk_length]; omega
  rw [setSignDataFull, setSignDataChunk_getD _ _ _ _ _ hk2]
  rcases lt_or_ge k (8 * (numEl / 8)) with h | h
  · rw [if_neg (by omega), setSignDataChunk_getD _ _ _ _ _ hk1,
      if_pos (by omega)]
  · rw [if_pos (by omega), setSignDataChunk_getD _ _ _ _ _ hk1,
      if_neg (by omega)]

theorem unSetSignDataFull_getD (f : ℝ → ℝ) (sign : List ℕ) (data : List ℝ)
    (numEl k : ℕ) (hlen : data.length = numEl) (hk : k < numEl) :
    (unSetSignDataFull f sign data numEl).getD k 0 =
      (1 - 2 * (bitOf sign k : ℝ)) * f (data.getD k 0) := by
  have hk1 : k < data.length := by omega
  have hk2 : k < (unSetSignDataChunk f sign data 0 (8 * (numEl / 8))).length := by
    rw [unSetSignDataChunk_length]; omega
  rw [unSetSignDataFull, unSetSignDataChunk_getD _ _ _ _ _ _ hk2]
  rcases lt_or_ge k (8 * (numEl / 8)) with h | h
  · rw [if_neg (by omega), unSetSignDataChunk_getD _ _ _ _ _ _ hk1,
      if_pos (by omega)]
  · rw [if_pos (by omega), unSetSignDataChunk_getD _ _ _ _ _ _ hk1,
      if_neg (by omega)]

theorem setSignDataFull_eq_map (f : ℝ → ℝ) (data : List ℝ) :
    setSignDataFull f data data.length = data.map fun v => f |v| := by
  apply List.ext_getElem
  · rw [setSignDataFull_length, List.length_map]
  · intro k h1 h2
    have hk : k < data.length := by
      rw [setSignDataFull_length] at h1; exact h1
    rw [← List.getD_eq_getElem _ 0 h1, ← List.getD_eq_getElem _ 0 h2]
    rw [setSignDataFull_getD f data data.length k rfl hk,
      getD_map_lt _ _ hk 0 0]

theorem signCodec_roundtrip (data : List ℝ) :
    unSetSignDataFull SqrtF (signFull data data.length)
      (setSignDataFull SquareF data data.length) data.length = data := by
  apply List.ext_getElem
  · rw [unSetSignDataFull_length, setSignDataFull_length]
  · intro k h1 h2
    have hk : k < data.length := h2
    have hlen1 : (setSignDataFull SquareF data data.length).length =
        data.length := setSignDataFull_length _ _ _
    rw [← List.getD_eq_getElem _ 0 h1, ← List.getD_eq_getElem _ 0 h2]
    rw [unSetSignDataFull_getD _ _ _ _ _ hlen1 hk,
      setSignDataFull_getD _ _ _ _ rfl hk,
      bitOf_signFull data data.length k hk]
    set v := data.getD k 0 with hv
    have hsq : SquareF |v| = v * v := by
      rw [SquareF, abs_mul_abs_self]
    rw [hsq, SqrtF, Real.sqrt_mul_self_eq_abs]
    by_cases hneg : v < 0
    · rw [if_pos hneg, abs_of_neg hneg]
      push_cast
      ring
    · rw [if_neg hneg, abs_of_nonneg (not_lt.mp hneg)]
      push_cast
      ring

/-! ## Sparse transpose correctness -/

theorem length_filter_lt_succ (key : β → ℕ) (tr : List β) (j : ℕ) :
    (tr.filter fun e => key e < j + 1).length =
      (tr.filter fun e => key e < j).length +
        (tr.filter fun e => key e = j).length := by
  induction tr with
  | nil => simp
  | cons a l ih =>
    rcases Nat.lt_trichotomy (key a) j with h | h | h
    · rw [List.filter_cons, List.filter_cons, List.filter_cons,
        if_pos (by simp only [decide_eq_true_eq]; omega),
        if_pos (by simp only [decide_eq_true_eq]; omega),
        if_neg (by simp only [decide_eq_true_eq]; omega)]
      simp only [List.length_cons]
      omega
    · rw [List.filter_cons, List.filter_cons, List.filter_cons,
        if_pos (by simp only [decide_eq_true_eq]; omega),
        if_neg (by simp only [decide_eq_true_eq]; omega),
        if_pos (by simp only [decide_eq_true_eq]; omega)]
      simp only [List.length_cons]
      omega
    · rw [List.filter_cons, List.filter_cons, List.filter_cons,
        if_neg (by simp only [decide_eq_true_eq]; omega),
        if_neg (by simp only [decide_eq_true_eq]; omega),
        if_neg (by simp only [decide_eq_true_eq]; omega)]
      omega

theorem mono_chain (f : ℕ → ℕ) {p : ℕ}
    (hmono : ∀ t < p, f t ≤ f (t + 1)) :
    ∀ {t t' : ℕ}, t ≤ t' → t' ≤ p → f t ≤ f t' := by
  intro t t' h1 h2
  induction t' with
  | zero =>
    have : t = 0 := by omega
    subst this
    exact le_refl _
  | succ v ih =>
    rcases Nat.lt_or_ge t (v + 1) with h | h
    · exact le_trans (ih (by omega) (by omega)) (hmono v (by omega))
    · have : t = v + 1 := by omega
      subst this
      exact le_refl _

theorem ptr_mono_chain {ptr : List ℕ} {p : ℕ}
    (hmono : ∀ t < p, ptr.getD t 0 ≤ ptr.getD (t + 1) 0) :
    ∀ {t t' : ℕ}, t ≤ t' → t' ≤ p → ptr.getD t 0 ≤ ptr.getD t' 0 :=
  mono_chain (fun t => ptr.getD t 0) hmono

theorem sum_telescope (p : ℕ) (f : ℕ → ℕ)
    (hmono : ∀ t < p, f t ≤ f (t + 1)) :
    ((List.range p).map fun t => f (t + 1) - f t).sum = f p - f 0 := by
  induction p with
  | zero => simp
  | succ q ih =>
    rw [List.range_succ, List.map_append, List.sum_append,
      ih (fun t ht => hmono t (by omega))]
    have hch : f 0 ≤ f q :=
      mono_chain f hmono (by omega) (by omega)
    have hlast : f q ≤ f (q + 1) := hmono q (by omega)
    simp only [List.map_cons, List.map_nil, List.sum_cons, List.sum_nil]
    omega

theorem csrTriples_length {vals : List α} {ind ptr : List ℕ} {p q nnzc : ℕ}
    (h : HalfWF p q nnzc vals ind ptr) :
    (csrTriples vals ind ptr p).length = nnzc := by
  rw [csrTriples, List.length_flatMap]
  have hcongr : ∀ t ∈ List.range p,
      (List.length ∘ fun t2 => (bucketRange ptr t2).map
        fun k => (t2, ind.getD k 0, vals.getD k 0)) t =
      ptr.getD (t + 1) 0 - ptr.getD t 0 := by
    intro t _
    simp [bucketRange]
  rw [List.map_congr_left hcongr,
    sum_telescope p (fun t => ptr.getD t 0) h.ptr_mono, h.ptr_last, h.ptr_zero]
  omega

theorem csrTriples_mem_fst {vals : List α} {ind ptr : List ℕ} {p : ℕ}
    {e : ℕ × ℕ × α} (he : e ∈ csrTriples vals ind ptr p) : e.1 < p := by
  rw [csrTriples, List.mem_flatMap] at he
  obtain ⟨t, ht, hm⟩ := he
  rw [List.mem_map] at hm
  obtain ⟨k, _, rfl⟩ := hm
  exact List.mem_range.mp ht

theorem csrTriples_mem_snd {vals : List α} {ind ptr : List ℕ} {p q nnzc : ℕ}
    (h : HalfWF p q nnzc vals ind ptr) {e : ℕ × ℕ × α}
    (he : e ∈ csrTriples vals ind ptr p) : e.2.1 < q := by
  rw [csrTriples, List.mem_flatMap] at he
  obtain ⟨t, ht, hm⟩ := he
  rw [List.mem_map] at hm
  obtain ⟨k, hk, rfl⟩ := hm
  rw [List.mem_range] at ht
  have hk2 := mem_bucketRange hk
  have hkn : k < nnzc := by
    have := @ptr_mono_chain ptr p h.ptr_mono (t + 1) p (by omega) (le_refl p)
    rw [h.ptr_last] at this
    omega
  exact h.ind_bound k hkn

theorem flatten_drop_sumLen {δ : Type} :
    ∀ (L : List (List δ)) (j : ℕ),
      L.flatten.drop (((L.take j).map List.length).sum) = (L.drop j).flatten := by
  intro L
  induction L with
  | nil => intro j; simp
  | cons b L2 ih =>
    intro j
    cases j with
    | zero => simp
    | succ j2 =>
      rw [List.take_succ_cons, List.map_cons, List.sum_cons,
        List.flatten_cons, List.drop_append, List.drop_succ_cons]
      exact ih j2

theorem sum_bucket_lengths (key : β → ℕ) (entries : List β) (j : ℕ) :
    ((List.range j).map
      fun j2 => (entries.filter fun e => key e = j2).length).sum =
      (entries.filter fun e => key e < j).length := by
  induction j with
  | zero =>
    have : (entries.filter fun e => key e < 0) = [] := by
      rw [List.filter_eq_nil_iff]
      intro e _
      simp
    rw [this]
    simp
  | succ q ih =>
    rw [List.range_succ, List.map_append, List.sum_append, ih,
      length_filter_lt_succ key entries q]
    simp

theorem csrTriples_of_buckets (entries : List (ℕ × ℕ × α)) (s : ℕ) :
    csrTriples
      (((List.range s).flatMap fun j =>
          entries.filter fun e => e.2.1 = j).map fun e => e.2.2)
      (((List.range s).flatMap fun j =>
          entries.filter fun e => e.2.1 = j).map fun e => e.1)
      ((List.range (s + 1)).map fun j =>
          (entries.filter fun e => e.2.1 < j).length)
      s =
    ((List.range s).flatMap fun j =>
        entries.filter fun e => e.2.1 = j).map swapRC := by
  set sorted := (List.range s).flatMap fun j =>
    entries.filter fun e => e.2.1 = j with hsor
  have hRHS : sorted.map swapRC = (List.range s).flatMap fun j =>
      (entries.filter fun e => e.2.1 = j).map swapRC := by
    rw [hsor, List.map_flatMap]
  rw [hRHS]
  unfold csrTriples
  rw [List.flatMap_def, List.flatMap_def]
  congr 1
  apply List.map_congr_left
  intro j hjm
  rw [List.mem_range] at hjm
  -- abbreviations
  have hP : ∀ j2, j2 < s + 1 →
      ((List.range (s + 1)).map fun j3 =>
        (entries.filter fun e => e.2.1 < j3).length).getD j2 0 =
      (entries.filter fun e => e.2.1 < j2).length := by
    intro j2 h2
    exact getD_range_map_lt _ h2 0
  have hlenstep := length_filter_lt_succ (fun e : ℕ × ℕ × α => e.2.1) entries j
  have hbr : bucketRange ((List.range (s + 1)).map fun j3 =>
      (entries.filter fun e => e.2.1 < j3).length) j =
      List.range' ((entries.filter fun e => e.2.1 < j).length)
        ((entries.filter fun e => e.2.1 = j).length) := by
    rw [bucketRange, hP j (by omega), hP (j + 1) (by omega)]
    congr 1
    omega
  -- the flattened-bucket structure of sorted
  have hsorL : sorted = ((List.range s).map fun j2 =>
      entries.filter fun e => e.2.1 = j2).flatten := by
    rw [hsor, List.flatMap_def]
  have htake : ((List.range s).map fun j2 =>
      entries.filter fun e => e.2.1 = j2).take j =
      (List.range j).map fun j2 => entries.filter fun e => e.2.1 = j2 := by
    rw [← List.map_take, List.take_range, Nat.min_eq_left (by omega)]
  have hPsum : ((((List.range s).map fun j2 =>
      entries.filter fun e => e.2.1 = j2).take j).map List.length).sum =
      (entries.filter fun e => e.2.1 < j).length := by
    rw [htake, List.map_map]
    exact sum_bucket_lengths (fun e : ℕ × ℕ × α => e.2.1) entries j
  have hdrop : sorted.drop ((entries.filter fun e => e.2.1 < j).length) =
      (entries.filter fun e => e.2.1 = j) ++
        (((List.range s).map fun j2 =>
          entries.filter fun e => e.2.1 = j2).drop (j + 1)).flatten := by
    rw [hsorL, ← hPsum, flatten_drop_sumLen]
    have hjL : j < ((List.range s).map fun j2 =>
        entries.filter fun e => e.2.1 = j2).length := by
      simp [hjm]
    rw [List.drop_eq_getElem_cons hjL, List.flatten_cons]
    congr 1
    simp
  have hlensor : ∀ i, i < (entries.filter fun e => e.2.1 = j).length →
      (entries.filter fun e => e.2.1 < j).length + i < sorted.length := by
    intro i hi
    have h1 : (sorted.drop
        ((entries.filter fun e => e.2.1 < j).length)).length =
        (entries.filter fun e => e.2.1 = j).length +
          (((List.range s).map fun j2 =>
            entries.filter fun e => e.2.1 = j2).drop (j + 1)).flatten.length := by
      rw [hdrop, List.length_append]
    rw [List.length_drop] at h1
    omega
  rw [hbr, List.range'_eq_map_range, List.map_map]
  apply List.ext_getElem
  · simp
  · intro i h1 h2
    have hi : i < (entries.filter fun e => e.2.1 = j).length := by
      simpa using h2
    have hPi := hlensor i hi
    rw [List.getElem_map, List.getElem_map, List.getElem_range]
    show ((j, (sorted.map fun e => e.1).getD
        ((entries.filter fun e => e.2.1 < j).length + i) 0,
        (sorted.map fun e => e.2.2).getD
        ((entries.filter fun e => e.2.1 < j).length + i) 0) : ℕ × ℕ × α) =
      swapRC ((entries.filter fun e => e.2.1 = j)[i])
    have hel : sorted.getD
        ((entries.filter fun e => e.2.1 < j).length + i) (0, 0, (0 : α)) =
        (entries.filter fun e => e.2.1 = j)[i] := by
      rw [← getD_drop sorted _ i (0, 0, (0 : α)), hdrop,
        getD_append_lt _ _ hi, List.getD_eq_getElem _ _ hi]
    have hmem : (entries.filter fun e => e.2.1 = j)[i] ∈
        entries.filter fun e => e.2.1 = j := List.getElem_mem hi
    have hcol : ((entries.filter fun e => e.2.1 = j)[i]).2.1 = j := by
      have := (List.mem_filter.mp hmem).2
      simpa using this
    rw [getD_map_lt _ _ hPi 0 (0, 0, (0 : α)),
      getD_map_lt _ _ hPi 0 (0, 0, (0 : α)), hel, swapRC, hcol]

theorem transposeHalf_csrTriples (vals : List α) (ind ptr : List ℕ)
    (p s : ℕ) :
    csrTriples (transposeHalf vals ind ptr p s).1
      (transposeHalf vals ind ptr p s).2.1
      (transposeHalf vals ind ptr p s).2.2 s =
    ((List.range s).flatMap fun j =>
      (csrTriples vals ind ptr p).filter fun e => e.2.1 = j).map swapRC := by
  simp only [transposeHalf]
  exact csrTriples_of_buckets (csrTriples vals ind ptr p) s

theorem transposeHalf_perm (vals : List α) (ind ptr : List ℕ) (p s : ℕ)
    (hbound : ∀ e ∈ csrTriples vals ind ptr p, e.2.1 < s) :
    (csrTriples (transposeHalf vals ind ptr p s).1
      (transposeHalf vals ind ptr p s).2.1
      (transposeHalf vals ind ptr p s).2.2 s).Perm
    ((csrTriples vals ind ptr p).map swapRC) := by
  rw [transposeHalf_csrTriples]
  exact List.Perm.map swapRC
    (flatMap_filter_perm (fun e : ℕ × ℕ × α => e.2.1) s _ hbound)

theorem transposeHalf_wf {vals : List α} {ind ptr : List ℕ} {p q nnzc : ℕ}
    (h : HalfWF p q nnzc vals ind ptr) :
    HalfWF q p nnzc (transposeHalf vals ind ptr p q).1
      (transposeHalf vals ind ptr p q).2.1
      (transposeHalf vals ind ptr p q).2.2 := by
  have hperm := flatMap_filter_perm (fun e : ℕ × ℕ × α => e.2.1) q
    (csrTriples vals ind ptr p) (fun e he => csrTriples_mem_snd h he)
  have hslen : ((List.range q).flatMap fun j =>
      (csrTriples vals ind ptr p).filter fun e => e.2.1 = j).length = nnzc := by
    rw [hperm.length_eq]
    exact csrTriples_length h
  constructor
  · simp only [transposeHalf]
    rw [List.length_map]
    exact hslen
  · simp only [transposeHalf]
    rw [List.length_map]
    exact hslen
  · simp [transposeHalf]
  · simp only [transposeHalf]
    rw [getD_range_map_lt _ (by omega) 0]
    have hnil : ((csrTriples vals ind ptr p).filter
        fun e => e.2.1 < 0) = [] := by
      rw [List.filter_eq_nil_iff]
      intro e _
      simp
    rw [hnil]
    rfl
  · simp only [transposeHalf]
    rw [getD_range_map_lt _ (by omega) 0]
    have hall : ((csrTriples vals ind ptr p).filter
        fun e => e.2.1 < q) = csrTriples vals ind ptr p := by
      rw [List.filter_eq_self]
      intro e he
      simpa using csrTriples_mem_snd h he
    rw [hall]
    exact csrTriples_length h
  · intro t ht
    simp only [transposeHalf]
    rw [getD_range_map_lt _ (by omega) 0, getD_range_map_lt _ (by omega) 0]
    have := length_filter_lt_succ (fun e : ℕ × ℕ × α => e.2.1)
      (csrTriples vals ind ptr p) t
    omega
  · intro k hk
    simp only [transposeHalf]
    have hklen : k < ((List.range q).flatMap fun j =>
        (csrTriples vals ind ptr p).filter fun e => e.2.1 = j).length := by
      omega
    rw [getD_map_lt _ _ hklen 0 (0, 0, (0 : α)),
      List.getD_eq_getElem _ _ hklen]
    have hmem := List.getElem_mem hklen
    have hment : ((List.range q).flatMap fun j =>
        (csrTriples vals ind ptr p).filter fun e => e.2.1 = j)[k] ∈
        csrTriples vals ind ptr p := by
      have := hperm.mem_iff.mp hmem
      exact this
    exact csrTriples_mem_fst hment

/-! ## Init characterization -/

theorem map_swapRC_swapRC (l : List (ℕ × ℕ × α)) :
    (l.map swapRC).map swapRC = l := by
  rw [List.map_map]
  have hid : (swapRC ∘ swapRC : ℕ × ℕ × α → ℕ × ℕ × α) = id := by
    funext e
    rfl
  rw [hid, List.map_id]

theorem init_spec (s : MatrixSparse α) (h0 : s.done_init = false)
    (hWF : WFInput s) :
    (s.Init).1 = 0 ∧
    (s.Init).2.done_init = true ∧
    WFState (s.Init).2 ∧
    (s.Init).2.rowTriples.Perm (inputTriples s) ∧
    (s.Init).2.colTriples.Perm ((inputTriples s).map swapRC) := by
  obtain ⟨m, n, nz, ord, ⟨od, op, oi⟩, di, da, ia, pa⟩ := s
  simp only at h0
  subst h0
  cases ord with
  | ROW =>
    have hWF2 : HalfWF m n nz od oi op := hWF
    have hT := transposeHalf_wf hWF2
    have hTP := transposeHalf_perm od oi op m n
      (fun e he => csrTriples_mem_snd hWF2 he)
    simp only [MatrixSparse.Init, if_neg (by simp : ¬ (false = true))]
    refine ⟨trivial, trivial, ?_, ?_, ?_⟩
    · constructor
      · simp only [MatrixSparse.data]
        rw [List.length_append, hWF2.vals_len, hT.vals_len]
        omega
      · simp only [MatrixSparse.ind]
        rw [List.length_append, hWF2.ind_len, hT.ind_len]
        omega
      · simp only [MatrixSparse.ptr]
        rw [List.length_append, hWF2.ptr_len, hT.ptr_len]
        omega
      · simp only [MatrixSparse.csrArrays]
        rw [List.take_left' hWF2.vals_len, List.take_left' hWF2.ind_len,
          List.take_left' hWF2.ptr_len]
        exact hWF2
      · simp only [MatrixSparse.cscArrays]
        rw [List.drop_left' hWF2.vals_len, List.drop_left' hWF2.ind_len,
          List.drop_left' hWF2.ptr_len]
        exact hT
    · simp only [MatrixSparse.rowTriples, MatrixSparse.csrArrays, inputTriples]
      rw [List.take_left' hWF2.vals_len, List.take_left' hWF2.ind_len,
        List.take_left' hWF2.ptr_len]
    · simp only [MatrixSparse.colTriples, MatrixSparse.cscArrays, inputTriples]
      rw [List.drop_left' hWF2.vals_len, List.drop_left' hWF2.ind_len,
        List.drop_left' hWF2.ptr_len]
      exact hTP
  | COL =>
    have hWF2 : HalfWF n m nz od oi op := hWF
    have hT := transposeHalf_wf hWF2
    have hTP := transposeHalf_perm od oi op n m
      (fun e he => csrTriples_mem_snd hWF2 he)
    simp only [MatrixSparse.Init, if_neg (by simp : ¬ (false = true))]
    refine ⟨trivial, trivial, ?_, ?_, ?_⟩
    · constructor
      · simp only [MatrixSparse.data]
        rw [List.length_append, hWF2.vals_len, hT.vals_len]
        omega
      · simp only [MatrixSparse.ind]
        rw [List.length_append, hWF2.ind_len, hT.ind_len]
        omega
      · simp only [MatrixSparse.ptr]
        rw [List.length_append, hWF2.ptr_len, hT.ptr_len]
        omega
      · simp only [MatrixSparse.csrArrays]
        rw [List.drop_left' hWF2.vals_len, List.drop_left' hWF2.ind_len,
          List.drop_left' hWF2.ptr_len]
        exact hT
      · simp only [MatrixSparse.cscArrays]
        rw [List.take_left' hWF2.vals_len, List.take_left' hWF2.ind_len,
          List.take_left' hWF2.ptr_len]
        exact hWF2
    · simp only [MatrixSparse.rowTriples, MatrixSparse.csrArrays, inputTriples]
      rw [List.drop_left' hWF2.vals_len, List.drop_left' hWF2.ind_len,
        List.drop_left' hWF2.ptr_len]
      exact hTP
    · simp only [MatrixSparse.colTriples, MatrixSparse.cscArrays, inputTriples]
      rw [List.take_left' hWF2.vals_len, List.take_left' hWF2.ind_len,
        List.take_left' hWF2.ptr_len, map_swapRC_swapRC]

theorem init_preserves (s : MatrixSparse α) :
    (s.Init).2.m = s.m ∧ (s.Init).2.n = s.n ∧ (s.Init).2.nnz = s.nnz ∧
    (s.Init).2.ord = s.ord ∧ (s.Init).2.info = s.info := by
  rw [MatrixSparse.Init]
  by_cases h : s.done_init
  · rw [if_pos h]
    exact ⟨rfl, rfl, rfl, rfl, rfl⟩
  · rw [if_neg h]
    cases hord : s.ord <;> exact ⟨rfl, rfl, rfl, rfl, rfl⟩

theorem halvesConsistent_of_perms {s : MatrixSparse α}
    {tr : List (ℕ × ℕ × α)} (h1 : s.rowTriples.Perm tr)
    (h2 : s.colTriples.Perm (tr.map swapRC)) : s.halvesConsistent := by
  rw [MatrixSparse.halvesConsistent]
  refine h1.trans ?_
  have := (h2.map swapRC).symm
  rw [map_swapRC_swapRC] at this
  exact this

/-! ## Bucketed update loop characterization -/

theorem innerFold_length (g : ℕ → ℕ → α → α) (t : ℕ) :
    ∀ (ks : List ℕ) (dat : List α),
      (ks.foldl (fun d2 i => d2.set i (g t i (d2.getD i 0))) dat).length =
        dat.length := by
  intro ks
  induction ks with
  | nil => intro dat; rfl
  | cons i rest ih =>
    intro dat
    rw [List.foldl_cons, ih, List.length_set]

theorem innerFold_getD (g : ℕ → ℕ → α → α) (t : ℕ) :
    ∀ (ks : List ℕ), ks.Nodup → ∀ (dat : List α) (k : ℕ),
      (ks.foldl (fun d2 i => d2.set i (g t i (d2.getD i 0))) dat).getD k 0 =
        if k ∈ ks ∧ k < dat.length then g t k (dat.getD k 0)
        else dat.getD k 0 := by
  intro ks
  induction ks with
  | nil =>
    intro _ dat k
    simp
  | cons i rest ih =>
    intro hnd dat k
    have hnd2 : rest.Nodup := (List.nodup_cons.mp hnd).2
    have hni : i ∉ rest := (List.nodup_cons.mp hnd).1
    rw [List.foldl_cons, ih hnd2, List.length_set]
    by_cases hk : k = i
    · subst hk
      rw [if_neg (fun hc => hni hc.1)]
      by_cases hkl : k < dat.length
      · rw [if_pos ⟨List.mem_cons_self _ _, hkl⟩]
        simp [List.getD_eq_getElem?_getD, List.getElem?_set, hkl]
      · rw [if_neg (fun hc => hkl hc.2)]
        have h1 : dat[k]? = none := List.getElem?_eq_none (by omega)
        simp [List.getD_eq_getElem?_getD, List.getElem?_set, hkl, h1]
    · have hik : ¬ i = k := fun h => hk h.symm
      have hset : (dat.set i (g t i (dat.getD i 0))).getD k 0 =
          dat.getD k 0 := by
        simp [List.getD_eq_getElem?_getD, List.getElem?_set, hik]
      rw [hset]
      by_cases hm : k ∈ rest ∧ k < dat.length
      · rw [if_pos hm, if_pos ⟨List.mem_cons_of_mem _ hm.1, hm.2⟩]
      · rw [if_neg hm, if_neg (fun hc =>
          hm ⟨(List.mem_cons.mp hc.1).resolve_left hk, hc.2⟩)]

theorem setLoop_length (g : ℕ → ℕ → α → α) (data : List α) (ptr : List ℕ) :
    ∀ size, (setLoop g data ptr size).length = data.length := by
  intro size
  induction size with
  | zero => rfl
  | succ q ih =>
    rw [setLoop, innerFold_length, ih]

theorem setLoop_getD_out (g : ℕ → ℕ → α → α) (data : List α) (ptr : List ℕ)
    (k : ℕ) :
    ∀ size, (∀ t < size, ¬(ptr.getD t 0 ≤ k ∧ k < ptr.getD (t + 1) 0)) →
      (setLoop g data ptr size).getD k 0 = data.getD k 0 := by
  intro size
  induction size with
  | zero => intro _; rfl
  | succ q ih =>
    intro hout
    rw [setLoop, innerFold_getD g q (bucketRange ptr q)
      (List.nodup_range' _ _)]
    rw [if_neg (fun hc => ?_), ih (fun t ht => hout t (by omega))]
    have hmem := mem_bucketRange hc.1
    exact hout q (by omega) ⟨hmem.1, hmem.2⟩

theorem setLoop_getD_in (g : ℕ → ℕ → α → α) (data : List α) (ptr : List ℕ)
    {size t k : ℕ}
    (hmono : ∀ t2 < size, ptr.getD t2 0 ≤ ptr.getD (t2 + 1) 0)
    (ht : t < size) (h1 : ptr.getD t 0 ≤ k) (h2 : k < ptr.getD (t + 1) 0)
    (hk : k < data.length) :
    (setLoop g data ptr size).getD k 0 = g t k (data.getD k 0) := by
  induction size with
  | zero => omega
  | succ q ih =>
    rw [setLoop, innerFold_getD g q (bucketRange ptr q)
      (List.nodup_range' _ _)]
    rcases Nat.lt_or_ge t q with hlt | hge
    · -- k lies in an earlier bucket, untouched by bucket q
      rw [if_neg (fun hc => ?_)]
      · exact ih (fun t2 ht2 => hmono t2 (by omega)) hlt
      · have hmem := mem_bucketRange hc.1
        have hchain : ptr.getD (t + 1) 0 ≤ ptr.getD q 0 :=
          @ptr_mono_chain _ q (fun t2 ht2 => hmono t2 (by omega))
            _ _ (by omega) (by omega)
        omega
    · have htq : t = q := by omega
      subst htq
      have hprev : (setLoop g data ptr t).getD k 0 = data.getD k 0 := by
        apply setLoop_getD_out
        intro t2 ht2 hc
        have hchain : ptr.getD (t2 + 1) 0 ≤ ptr.getD t 0 :=
          @ptr_mono_chain _ t (fun t3 ht3 => hmono t3 (by omega))
            _ _ (by omega) (by omega)
        omega
      have hmem : k ∈ bucketRange ptr t := by
        rw [bucketRange, List.mem_range'_1]
        have := hmono t (by omega)
        omega
      rw [if_pos ⟨hmem, by rw [setLoop_length]; omega⟩, hprev]

theorem multRowLoop_getD_in (d e : List α) (data : List α)
    (ptr ind : List ℕ) {size t k : ℕ}
    (hmono : ∀ t2 < size, ptr.getD t2 0 ≤ ptr.getD (t2 + 1) 0)
    (ht : t < size) (h1 : ptr.getD t 0 ≤ k) (h2 : k < ptr.getD (t + 1) 0)
    (hk : k < data.length) :
    (multRowLoop d e data ptr ind size).getD k 0 =
      data.getD k 0 * (d.getD t 0 * e.getD (ind.getD k 0) 0) :=
  setLoop_getD_in _ data ptr hmono ht h1 h2 hk

theorem multColLoop_getD_in (d e : List α) (data : List α)
    (ptr ind : List ℕ) {size t k : ℕ}
    (hmono : ∀ t2 < size, ptr.getD t2 0 ≤ ptr.getD (t2 + 1) 0)
    (ht : t < size) (h1 : ptr.getD t 0 ≤ k) (h2 : k < ptr.getD (t + 1) 0)
    (hk : k < data.length) :
    (multColLoop d e data ptr ind size).getD k 0 =
      data.getD k 0 * (d.getD (ind.getD k 0) 0 * e.getD t 0) :=
  setLoop_getD_in _ data ptr hmono ht h1 h2 hk

theorem multRowLoop_length (d e : List α) (data : List α) (ptr ind : List ℕ)
    (size : ℕ) : (multRowLoop d e data ptr ind size).length = data.length :=
  setLoop_length _ data ptr size

theorem multColLoop_length (d e : List α) (data : List α) (ptr ind : List ℕ)
    (size : ℕ) : (multColLoop d e data ptr ind size).length = data.length :=
  setLoop_length _ data ptr size

/-! ## Triple-level characterization of the in-place transforms -/

theorem csrTriples_congr_values (vals vals2 : List α) (ind ptr : List ℕ)
    (p : ℕ) (F : ℕ → ℕ → α → α)
    (h : ∀ t < p, ∀ k, ptr.getD t 0 ≤ k → k < ptr.getD (t + 1) 0 →
      vals2.getD k 0 = F t (ind.getD k 0) (vals.getD k 0)) :
    csrTriples vals2 ind ptr p =
      (csrTriples vals ind ptr p).map
        fun e => (e.1, e.2.1, F e.1 e.2.1 e.2.2) := by
  unfold csrTriples
  rw [List.map_flatMap, List.flatMap_def, List.flatMap_def]
  congr 1
  apply List.map_congr_left
  intro t ht
  rw [List.mem_range] at ht
  rw [List.map_map]
  apply List.map_congr_left
  intro k hk
  have hb := mem_bucketRange hk
  simp only [Function.comp_apply]
  rw [h t ht k hb.1 hb.2]

theorem ord_set_data (s : MatrixSparse α) (newdata : List α) :
    ({ s with data := newdata } : MatrixSparse α).ord = s.ord := rfl

theorem csr_pos_lt_nnz {s : MatrixSparse α} (hWF : WFState s) {t k : ℕ}
    (ht : t < s.m) (h2 : k < s.csrArrays.2.2.getD (t + 1) 0) : k < s.nnz := by
  have hch : s.csrArrays.2.2.getD (t + 1) 0 ≤ s.csrArrays.2.2.getD s.m 0 :=
    ptr_mono_chain hWF.csr.ptr_mono (by omega) (le_refl _)
  have := hWF.csr.ptr_last
  omega

theorem csc_pos_lt_nnz {s : MatrixSparse α} (hWF : WFState s) {t k : ℕ}
    (ht : t < s.n) (h2 : k < s.cscArrays.2.2.getD (t + 1) 0) : k < s.nnz := by
  have hch : s.cscArrays.2.2.getD (t + 1) 0 ≤ s.cscArrays.2.2.getD s.n 0 :=
    ptr_mono_chain hWF.csc.ptr_mono (by omega) (le_refl _)
  have := hWF.csc.ptr_last
  omega

theorem rowTriples_value_map (s : MatrixSparse α) (hWF : WFState s)
    (newdata : List α) (f : α → α)
    (h : ∀ k < 2 * s.nnz, newdata.getD k 0 = f (s.data.getD k 0)) :
    ({ s with data := newdata } : MatrixSparse α).rowTriples =
      s.rowTriples.map fun e => (e.1, e.2.1, f e.2.2) := by
  cases hord : s.ord with
  | ROW =>
    simp only [MatrixSparse.rowTriples, MatrixSparse.csrArrays, ord_set_data,
      hord]
    apply csrTriples_congr_values _ _ _ _ s.m (fun _ _ v => f v)
    intro t ht k h1 h2
    have hkn : k < s.nnz := by
      have hch : (s.ptr.take (s.m + 1)).getD (t + 1) 0 ≤
          (s.ptr.take (s.m + 1)).getD s.m 0 := by
        have := hWF.csr.ptr_mono
        simp only [MatrixSparse.csrArrays, hord] at this
        exact ptr_mono_chain this (by omega) (le_refl _)
      have hlast := hWF.csr.ptr_last
      simp only [MatrixSparse.csrArrays, hord] at hlast
      omega
    rw [getD_take_lt _ hkn, getD_take_lt _ hkn, h k (by omega)]
  | COL =>
    simp only [MatrixSparse.rowTriples, MatrixSparse.csrArrays, ord_set_data,
      hord]
    apply csrTriples_congr_values _ _ _ _ s.m (fun _ _ v => f v)
    intro t ht k h1 h2
    have hkn : k < s.nnz := by
      have hch : (s.ptr.drop (s.n + 1)).getD (t + 1) 0 ≤
          (s.ptr.drop (s.n + 1)).getD s.m 0 := by
        have := hWF.csr.ptr_mono
        simp only [MatrixSparse.csrArrays, hord] at this
        exact ptr_mono_chain this (by omega) (le_refl _)
      have hlast := hWF.csr.ptr_last
      simp only [MatrixSparse.csrArrays, hord] at hlast
      omega
    rw [getD_drop, getD_drop, h (s.nnz + k) (by omega)]

theorem colTriples_value_map (s : MatrixSparse α) (hWF : WFState s)
    (newdata : List α) (f : α → α)
    (h : ∀ k < 2 * s.nnz, newdata.getD k 0 = f (s.data.getD k 0)) :
    ({ s with data := newdata } : MatrixSparse α).colTriples =
      s.colTriples.map fun e => (e.1, e.2.1, f e.2.2) := by
  cases hord : s.ord with
  | ROW =>
    simp only [MatrixSparse.colTriples, MatrixSparse.cscArrays, ord_set_data,
      hord]
    apply csrTriples_congr_values _ _ _ _ s.n (fun _ _ v => f v)
    intro t ht k h1 h2
    have hkn : k < s.nnz := by
      have hch : (s.ptr.drop (s.m + 1)).getD (t + 1) 0 ≤
          (s.ptr.drop (s.m + 1)).getD s.n 0 := by
        have := hWF.csc.ptr_mono
        simp only [MatrixSparse.cscArrays, hord] at this
        exact ptr_mono_chain this (by omega) (le_refl _)
      have hlast := hWF.csc.ptr_last
      simp only [MatrixSparse.cscArrays, hord] at hlast
      omega
    rw [getD_drop, getD_drop, h (s.nnz + k) (by omega)]
  | COL =>
    simp only [MatrixSparse.colTriples, MatrixSparse.cscArrays, ord_set_data,
      hord]
    apply csrTriples_congr_values _ _ _ _ s.n (fun _ _ v => f v)
    intro t ht k h1 h2
    have hkn : k < s.nnz := by
      have hch : (s.ptr.take (s.n + 1)).getD (t + 1) 0 ≤
          (s.ptr.take (s.n + 1)).getD s.n 0 := by
        have := hWF.csc.ptr_mono
        simp only [MatrixSparse.cscArrays, hord] at this
        exact ptr_mono_chain this (by omega) (le_refl _)
      have hlast := hWF.csc.ptr_last
      simp only [MatrixSparse.cscArrays, hord] at hlast
      omega
    rw [getD_take_lt _ hkn, getD_take_lt _ hkn, h k (by omega)]

theorem WFState_set_data (s : MatrixSparse α) (hWF : WFState s)
    (newdata : List α) (hlen : newdata.length = s.data.length) :
    WFState ({ s with data := newdata } : MatrixSparse α) := by
  have hd := hWF.data_len
  constructor
  · simpa using (by omega : newdata.length = 2 * s.nnz)
  · exact hWF.ind_len
  · exact hWF.ptr_len
  · cases hord : s.ord with
    | ROW =>
      have hold := hWF.csr
      simp only [MatrixSparse.csrArrays, hord] at hold ⊢
      exact ⟨by rw [List.length_take]; omega, hold.ind_len, hold.ptr_len,
        hold.ptr_zero, hold.ptr_last, hold.ptr_mono, hold.ind_bound⟩
    | COL =>
      have hold := hWF.csr
      simp only [MatrixSparse.csrArrays, hord] at hold ⊢
      exact ⟨by rw [List.length_drop]; omega, hold.ind_len, hold.ptr_len,
        hold.ptr_zero, hold.ptr_last, hold.ptr_mono, hold.ind_bound⟩
  · cases hord : s.ord with
    | ROW =>
      have hold := hWF.csc
      simp only [MatrixSparse.cscArrays, hord] at hold ⊢
      exact ⟨by rw [List.length_drop]; omega, hold.ind_len, hold.ptr_len,
        hold.ptr_zero, hold.ptr_last, hold.ptr_mono, hold.ind_bound⟩
    | COL =>
      have hold := hWF.csc
      simp only [MatrixSparse.cscArrays, hord] at hold ⊢
      exact ⟨by rw [List.length_take]; omega, hold.ind_len, hold.ptr_len,
        hold.ptr_zero, hold.ptr_last, hold.ptr_mono, hold.ind_bound⟩

theorem multDiag_length (s : MatrixSparse α) (hWF : WFState s)
    (d e : List α) :
    (multDiag d e s.m s.n s.nnz s.ord s.data s.ind s.ptr).length =
      2 * s.nnz := by
  have hd := hWF.data_len
  cases hord : s.ord with
  | ROW =>
    simp only [multDiag]
    rw [List.length_append, multRowLoop_length, multColLoop_length,
      List.length_take, List.length_drop]
    omega
  | COL =>
    simp only [multDiag]
    rw [List.length_append, multRowLoop_length, multColLoop_length,
      List.length_take, List.length_drop]
    omega

theorem multDiag_rowTriples (s : MatrixSparse α) (hWF : WFState s)
    (d e : List α) :
    ({ s with data :=
        multDiag d e s.m s.n s.nnz s.ord s.data s.ind s.ptr } :
      MatrixSparse α).rowTriples =
      s.rowTriples.map
        fun x => (x.1, x.2.1, x.2.2 * (d.getD x.1 0 * e.getD x.2.1 0)) := by
  have hd := hWF.data_len
  cases hord : s.ord with
  | ROW =>
    have hmono := hWF.csr.ptr_mono
    have hlast := hWF.csr.ptr_last
    simp only [MatrixSparse.csrArrays, hord] at hmono hlast
    have hA : (multRowLoop d e (s.data.take s.nnz) (s.ptr.take (s.m + 1))
        (s.ind.take s.nnz) s.m).length = s.nnz := by
      rw [multRowLoop_length, List.length_take]
      omega
    simp only [MatrixSparse.rowTriples, MatrixSparse.csrArrays, ord_set_data,
      hord, multDiag]
    rw [List.take_left' hA]
    apply csrTriples_congr_values _ _ _ _ s.m
      (fun t j v => v * (d.getD t 0 * e.getD j 0))
    intro t ht k h1 h2
    have hkn : k < s.nnz := by
      have hch : (s.ptr.take (s.m + 1)).getD (t + 1) 0 ≤
          (s.ptr.take (s.m + 1)).getD s.m 0 :=
        ptr_mono_chain hmono (by omega) (le_refl _)
      omega
    exact multRowLoop_getD_in d e _ _ _ hmono ht h1 h2
      (by rw [List.length_take]; omega)
  | COL =>
    have hmono := hWF.csr.ptr_mono
    have hlast := hWF.csr.ptr_last
    simp only [MatrixSparse.csrArrays, hord] at hmono hlast
    have hA : (multColLoop d e (s.data.take s.nnz) (s.ptr.take (s.n + 1))
        (s.ind.take s.nnz) s.n).length = s.nnz := by
      rw [multColLoop_length, List.length_take]
      omega
    simp only [MatrixSparse.rowTriples, MatrixSparse.csrArrays, ord_set_data,
      hord, multDiag]
    rw [List.drop_left' hA]
    apply csrTriples_congr_values _ _ _ _ s.m
      (fun t j v => v * (d.getD t 0 * e.getD j 0))
    intro t ht k h1 h2
    have hkn : k < s.nnz := by
      have hch : (s.ptr.drop (s.n + 1)).getD (t + 1) 0 ≤
          (s.ptr.drop (s.n + 1)).getD s.m 0 :=
        ptr_mono_chain hmono (by omega) (le_refl _)
      omega
    exact multRowLoop_getD_in d e _ _ _ hmono ht h1 h2
      (by rw [List.length_drop]; omega)

theorem multDiag_colTriples (s : MatrixSparse α) (hWF : WFState s)
    (d e : List α) :
    ({ s with data :=
        multDiag d e s.m s.n s.nnz s.ord s.data s.ind s.ptr } :
      MatrixSparse α).colTriples =
      s.colTriples.map
        fun x => (x.1, x.2.1, x.2.2 * (d.getD x.2.1 0 * e.getD x.1 0)) := by
  have hd := hWF.data_len
  cases hord : s.ord with
  | ROW =>
    have hmono := hWF.csc.ptr_mono
    have hlast := hWF.csc.ptr_last
    simp only [MatrixSparse.cscArrays, hord] at hmono hlast
    have hA : (multRowLoop d e (s.data.take s.nnz) (s.ptr.take (s.m + 1))
        (s.ind.take s.nnz) s.m).length = s.nnz := by
      rw [multRowLoop_length, List.length_take]
      omega
    simp only [MatrixSparse.colTriples, MatrixSparse.cscArrays, ord_set_data,
      hord, multDiag]
    rw [List.drop_left' hA]
    apply csrTriples_congr_values _ _ _ _ s.n
      (fun t j v => v * (d.getD j 0 * e.getD t 0))
    intro t ht k h1 h2
    have hkn : k < s.nnz := by
      have hch : (s.ptr.drop (s.m + 1)).getD (t + 1) 0 ≤
          (s.ptr.drop (s.m + 1)).getD s.n 0 :=
        ptr_mono_chain hmono (by omega) (le_refl _)
      omega
    exact multColLoop_getD_in d e _ _ _ hmono ht h1 h2
      (by rw [List.length_drop]; omega)
  | COL =>
    have hmono := hWF.csc.ptr_mono
    have hlast := hWF.csc.ptr_last
    simp only [MatrixSparse.cscArrays, hord] at hmono hlast
    have hA : (multColLoop d e (s.data.take s.nnz) (s.ptr.take (s.n + 1))
        (s.ind.take s.nnz) s.n).length = s.nnz := by
      rw [multColLoop_length, List.length_take]
      omega
    simp only [MatrixSparse.colTriples, MatrixSparse.cscArrays, ord_set_data,
      hord, multDiag]
    rw [List.take_left' hA]
    apply csrTriples_congr_values _ _ _ _ s.n
      (fun t j v => v * (d.getD j 0 * e.getD t 0))
    intro t ht k h1 h2
    have hkn : k < s.nnz := by
      have hch : (s.ptr.take (s.n + 1)).getD (t + 1) 0 ≤
          (s.ptr.take (s.n + 1)).getD s.n 0 :=
        ptr_mono_chain hmono (by omega) (le_refl _)
      omega
    exact multColLoop_getD_in d e _ _ _ hmono ht h1 h2
      (by rw [List.length_take]; omega)

end pogs

/-! ## Equil stage lemmas (over ℝ) -/

namespace pogs

theorem kNormEquilibrate_branch :
    kNormEquilibrate = NormTypes.kNorm2 ∨ kNormEquilibrate = NormTypes.kNormFro :=
  Or.inl rfl

theorem equilData1_eq (s : MatrixSparse ℝ) :
    equilData1 s = setSignDataFull SquareF s.data (2 * s.nnz) := by
  rw [equilData1, if_pos kNormEquilibrate_branch]

theorem equilData1_length (s : MatrixSparse ℝ) :
    (equilData1 s).length = s.data.length := by
  rw [equilData1_eq, setSignDataFull_length]

theorem equilData1_map (s : MatrixSparse ℝ) (hlen : s.data.length = 2 * s.nnz) :
    equilData1 s = s.data.map fun v => SquareF |v| := by
  rw [equilData1_eq, ← hlen, setSignDataFull_eq_map]

theorem equilData2_eq_data (s : MatrixSparse ℝ)
    (hlen : s.data.length = 2 * s.nnz) : equilData2 s = s.data := by
  rw [equilData2, if_pos kNormEquilibrate_branch, equilData1_eq, equilSign, ← hlen]
  exact signCodec_roundtrip s.data

theorem sinkhornLoop_lengths (s : MatrixSparse ℝ) (k : ℕ) :
    (sinkhornLoop s k).1.length = s.m ∧ (sinkhornLoop s k).2.length = s.n := by
  cases k with
  | zero => simp [sinkhornLoop]
  | succ q => simp [sinkhornLoop, sinkhornPass]

theorem equilD2E2_eq (s : MatrixSparse ℝ) :
    equilD2E2 s =
      ((sinkhornKnopp { s with data := equilData1 s }).1.map SqrtF,
       (sinkhornKnopp { s with data := equilData1 s }).2.map SqrtF) := by
  rw [equilD2E2, if_pos kNormEquilibrate_branch]

theorem equilD2E2_lengths (s : MatrixSparse ℝ) :
    (equilD2E2 s).1.length = s.m ∧ (equilD2E2 s).2.length = s.n := by
  rw [equilD2E2_eq]
  have := sinkhornLoop_lengths { s with data := equilData1 s } kEquilIter
  simp only [List.length_map]
  exact ⟨this.1, this.2⟩

theorem sum_squares_nonneg (v : List ℝ) : 0 ≤ (v.map fun x => x * x).sum := by
  apply List.sum_nonneg
  intro x hx
  rw [List.mem_map] at hx
  obtain ⟨y, _, rfl⟩ := hx
  exact mul_self_nonneg y

theorem nrm2_nonneg (v : List ℝ) : 0 ≤ nrm2 v := Real.sqrt_nonneg _

theorem nrm2_scale (v : List ℝ) (c : ℝ) (hc : 0 ≤ c) :
    nrm2 (v.map fun x => x * c) = nrm2 v * c := by
  rw [nrm2, nrm2, List.map_map]
  have hfun : ((fun x => x * x) ∘ fun x : ℝ => x * c) =
      fun x : ℝ => (x * x) * (c * c) := by
    funext x
    simp only [Function.comp_apply]
    ring
  rw [hfun, List.sum_map_mul_right, Real.sqrt_mul (sum_squares_nonneg v),
    Real.sqrt_mul_self hc]

theorem equilNormA_eq (s : MatrixSparse ℝ) :
    equilNormA s =
      nrm2 ((equilData3 s).take s.nnz) /
        Real.sqrt ((min s.m s.n : ℕ) : ℝ) := by
  rw [equilNormA]
  rfl

theorem equil_pipeline (s : MatrixSparse ℝ) (hdone : s.done_init = true)
    (hWF : WFState s) (hpos : 0 < equilNormA s) (d0 e0 : List ℝ) :
    (s.Equil d0 e0).1 = 0 ∧
    (s.Equil d0 e0).2.2.1.length = s.m ∧
    (s.Equil d0 e0).2.2.2.length = s.n ∧
    (s.Equil d0 e0).2.1.rowTriples =
      s.rowTriples.map (fun x => (x.1, x.2.1,
        (s.Equil d0 e0).2.2.1.getD x.1 0 * x.2.2 *
          (s.Equil d0 e0).2.2.2.getD x.2.1 0)) ∧
    (s.Equil d0 e0).2.1.colTriples =
      s.colTriples.map (fun x => (x.1, x.2.1,
        (s.Equil d0 e0).2.2.1.getD x.2.1 0 * x.2.2 *
          (s.Equil d0 e0).2.2.2.getD x.1 0)) ∧
    normEst kNormNormalize (s.Equil d0 e0).2.1 = some 1 := by
  have hEq : s.Equil d0 e0 =
      (0, { s with data := ((equilData3 s).map (fun v => v * (1 / equilNormA s))) },
        ((equilD2E2 s).1.map (fun v => v * (1 / Real.sqrt (equilNormA s)))),
        ((equilD2E2 s).2.map (fun v => v * (1 / Real.sqrt (equilNormA s))))) := by
    rw [MatrixSparse.Equil, hdone]
    rfl
  set nA := equilNormA s with hnA
  have hsq : Real.sqrt nA * Real.sqrt nA = nA := Real.mul_self_sqrt hpos.le
  have hsqpos : 0 < Real.sqrt nA := Real.sqrt_pos.mpr hpos
  have hd2 := equilD2E2_lengths s
  -- the diag-scaled data and its triple characterization
  have hdata2 := equilData2_eq_data s hWF.data_len
  have hdata3row : ({ s with data := equilData3 s } :
      MatrixSparse ℝ).rowTriples =
      s.rowTriples.map (fun x => (x.1, x.2.1,
        x.2.2 * ((equilD2E2 s).1.getD x.1 0 * (equilD2E2 s).2.getD x.2.1 0))) := by
    rw [equilData3, hdata2]
    exact multDiag_rowTriples s hWF (equilD2E2 s).1 (equilD2E2 s).2
  have hdata3col : ({ s with data := equilData3 s } :
      MatrixSparse ℝ).colTriples =
      s.colTriples.map (fun x => (x.1, x.2.1,
        x.2.2 * ((equilD2E2 s).1.getD x.2.1 0 * (equilD2E2 s).2.getD x.1 0))) := by
    rw [equilData3, hdata2]
    exact multDiag_colTriples s hWF (equilD2E2 s).1 (equilD2E2 s).2
  have hlen3 : (equilData3 s).length = 2 * s.nnz := by
    rw [equilData3, hdata2]
    exact multDiag_length s hWF (equilD2E2 s).1 (equilD2E2 s).2
  have hWF3 : WFState ({ s with data := equilData3 s } : MatrixSparse ℝ) :=
    WFState_set_data s hWF (equilData3 s) (by rw [hlen3, hWF.data_len])
  -- final state as a value map of the diag-scaled state
  have hfinrow : ({ s with data := ((equilData3 s).map (fun v => v * (1 / nA))) } :
      MatrixSparse ℝ).rowTriples =
      (({ s with data := equilData3 s } : MatrixSparse ℝ).rowTriples).map
        fun e => (e.1, e.2.1, e.2.2 * (1 / nA)) := by
    exact rowTriples_value_map { s with data := equilData3 s } hWF3
      ((equilData3 s).map fun v => v * (1 / nA)) (fun v => v * (1 / nA))
      (fun k hk => getD_map_lt _ _ (by rw [hlen3]; simpa using hk) 0 0)
  have hfincol : ({ s with data := ((equilData3 s).map (fun v => v * (1 / nA))) } :
      MatrixSparse ℝ).colTriples =
      (({ s with data := equilData3 s } : MatrixSparse ℝ).colTriples).map
        fun e => (e.1, e.2.1, e.2.2 * (1 / nA)) := by
    exact colTriples_value_map { s with data := equilData3 s } hWF3
      ((equilData3 s).map fun v => v * (1 / nA)) (fun v => v * (1 / nA))
      (fun k hk => getD_map_lt _ _ (by rw [hlen3]; simpa using hk) 0 0)
  rw [hEq]
  refine ⟨rfl, by rw [List.length_map]; exact hd2.1,
    by rw [List.length_map]; exact hd2.2, ?_, ?_, ?_⟩
  · show ({ s with data :=
        ((equilData3 s).map (fun v => v * (1 / nA))) } :
        MatrixSparse ℝ).rowTriples = _
    rw [hfinrow, hdata3row, List.map_map]
    apply List.map_congr_left
    intro x hx
    have hx1 : x.1 < s.m := csrTriples_mem_fst hx
    have hx2 : x.2.1 < s.n := csrTriples_mem_snd hWF.csr hx
    simp only [Function.comp_apply]
    have hgd : ((equilD2E2 s).1.map fun v =>
        v * (1 / Real.sqrt nA)).getD x.1 0 =
        (equilD2E2 s).1.getD x.1 0 * (1 / Real.sqrt nA) :=
      getD_map_lt _ _ (by rw [hd2.1]; omega) 0 0
    have hge : ((equilD2E2 s).2.map fun v =>
        v * (1 / Real.sqrt nA)).getD x.2.1 0 =
        (equilD2E2 s).2.getD x.2.1 0 * (1 / Real.sqrt nA) :=
      getD_map_lt _ _ (by rw [hd2.2]; omega) 0 0
    rw [hgd, hge]
    have h1 : (1 : ℝ) / nA = (1 / Real.sqrt nA) * (1 / Real.sqrt nA) := by
      rw [one_div_mul_one_div, hsq]
    rw [h1]
    ring
  · show ({ s with data :=
        ((equilData3 s).map (fun v => v * (1 / nA))) } :
        MatrixSparse ℝ).colTriples = _
    rw [hfincol, hdata3col, List.map_map]
    apply List.map_congr_left
    intro x hx
    have hx1 : x.1 < s.n := csrTriples_mem_fst hx
    have hx2 : x.2.1 < s.m := csrTriples_mem_snd hWF.csc hx
    simp only [Function.comp_apply]
    have hgd : ((equilD2E2 s).1.map fun v =>
        v * (1 / Real.sqrt nA)).getD x.2.1 0 =
        (equilD2E2 s).1.getD x.2.1 0 * (1 / Real.sqrt nA) :=
      getD_map_lt _ _ (by rw [hd2.1]; omega) 0 0
    have hge : ((equilD2E2 s).2.map fun v =>
        v * (1 / Real.sqrt nA)).getD x.1 0 =
        (equilD2E2 s).2.getD x.1 0 * (1 / Real.sqrt nA) :=
      getD_map_lt _ _ (by rw [hd2.2]; omega) 0 0
    rw [hgd, hge]
    have h1 : (1 : ℝ) / nA = (1 / Real.sqrt nA) * (1 / Real.sqrt nA) := by
      rw [one_div_mul_one_div, hsq]
    rw [h1]
    ring
  · show normEst kNormNormalize ({ s with data :=
        ((equilData3 s).map (fun v => v * (1 / nA))) } : MatrixSparse ℝ) = some 1
    have hnorm : normEst kNormNormalize ({ s with data :=
        ((equilData3 s).map (fun v => v * (1 / nA))) } : MatrixSparse ℝ) =
        some (nrm2 (((equilData3 s).map (fun v => v * (1 / nA))).take s.nnz) /
          Real.sqrt ((min s.m s.n : ℕ) : ℝ)) := rfl
    rw [hnorm]
    congr 1
    rw [← List.map_take, nrm2_scale _ _ (by positivity)]
    have hnA2 : nA = nrm2 ((equilData3 s).take s.nnz) /
        Real.sqrt ((min s.m s.n : ℕ) : ℝ) := equilNormA_eq s
    set a := nrm2 ((equilData3 s).take s.nnz) with ha
    set b := Real.sqrt ((min s.m s.n : ℕ) : ℝ) with hb
    have hb0 : 0 ≤ b := Real.sqrt_nonneg _
    have hbne : b ≠ 0 := by
      intro hc
      rw [hnA2, hc, div_zero] at hpos
      exact lt_irrefl 0 hpos
    have hane : a ≠ 0 := by
      intro hc
      rw [hnA2, hc, zero_div] at hpos
      exact lt_irrefl 0 hpos
    rw [hnA2]
    field_simp

end pogs

/-! ## Shared facts about the concrete examples and remaining helpers -/

namespace pogs

theorem sinkhornLoop_fixed (s : MatrixSparse ℝ)
    (hfix : sinkhornPass s (List.replicate s.m 1, List.replicate s.n 1) =
      (List.replicate s.m 1, List.replicate s.n 1)) :
    ∀ k, sinkhornLoop s k = (List.replicate s.m 1, List.replicate s.n 1) := by
  intro k
  induction k with
  | zero => rfl
  | succ q ih => rw [sinkhornLoop, ih, hfix]

theorem exMat_init : (exMat.Init).2 = exS := by
  norm_num [exMat, exS, MatrixSparse.Init, transposeHalf, csrTriples,
    bucketRange, List.range_succ, List.range']

theorem exMat_wf : WFInput exMat :=
  show HalfWF 1 1 1 ([1] : List ℝ) [0] [0, 1] from
    ⟨rfl, rfl, rfl, rfl, rfl, by decide, by decide⟩

theorem exMat2_wf : WFInput exMat2 :=
  show HalfWF 2 2 3 ([4, 2, 3] : List ℝ) [0, 1, 1] [0, 2, 3] from
    ⟨rfl, rfl, rfl, rfl, rfl, by decide, by decide⟩

theorem exS_data1 : equilData1 exS = [1, 1] := by
  rw [equilData1_map exS (by norm_num [exS])]
  norm_num [exS, SquareF]

theorem exS_pass :
    sinkhornPass exS (List.replicate exS.m 1, List.replicate exS.n 1) =
      (List.replicate exS.m 1, List.replicate exS.n 1) := by
  norm_num [sinkhornPass, rowAggregates, colAggregates, MatrixSparse.csrArrays,
    MatrixSparse.cscArrays, bucketRange, exS, List.range_succ, List.range',
    List.replicate]

theorem exS_sk :
    sinkhornKnopp { exS with data := equilData1 exS } = ([1], [1]) := by
  have h1 : ({ exS with data := equilData1 exS } : MatrixSparse ℝ) = exS := by
    rw [exS_data1]
    rfl
  rw [h1, sinkhornKnopp, sinkhornLoop_fixed exS exS_pass]
  norm_num [exS, List.replicate]

theorem exS_d2e2 : equilD2E2 exS = ([1], [1]) := by
  rw [equilD2E2_eq, exS_sk]
  norm_num [SqrtF]

theorem exS_data3 : equilData3 exS = [1, 1] := by
  rw [equilData3, equilData2_eq_data exS (by norm_num [exS]), exS_d2e2]
  norm_num [exS, multDiag, multRowLoop, multColLoop, setLoop, bucketRange,
    List.range', List.range_succ]

theorem exS_normA : equilNormA exS = 1 := by
  rw [equilNormA_eq, exS_data3]
  norm_num [exS, nrm2, Real.sqrt_one]

theorem mul_done_n {α : Type} [LinearOrderedField α] (s : MatrixSparse α)
    {trans : Char} (hdone : s.done_init = true)
    (htr : trans = 'n' ∨ trans = 'N') (a : α) (x : List α) (b : α)
    (y : List α) :
    s.Mul trans a x b y =
      (0, gemvCsr s.csrArrays.1 s.csrArrays.2.1 s.csrArrays.2.2 s.m a x b y) := by
  rw [MatrixSparse.Mul, hdone]
  rw [if_neg (by simp : ¬ ((!true : Bool) = true)), if_pos htr]

theorem mul_done_t {α : Type} [LinearOrderedField α] (s : MatrixSparse α)
    {trans : Char} (hdone : s.done_init = true)
    (htr : ¬ (trans = 'n' ∨ trans = 'N')) (a : α) (x : List α) (b : α)
    (y : List α) :
    s.Mul trans a x b y =
      (0, gemvCsr s.cscArrays.1 s.cscArrays.2.1 s.cscArrays.2.2 s.n a x b y) := by
  rw [MatrixSparse.Mul, hdone]
  rw [if_neg (by simp : ¬ ((!true : Bool) = true)), if_neg htr]

end pogs

namespace pogs

variable {α : Type} [LinearOrderedField α]

theorem halvesConsistent_value_map (s : MatrixSparse α) (hWFs : WFState s)
    (hc : s.halvesConsistent) (newdata : List α) (f : α → α)
    (h : ∀ k < 2 * s.nnz, newdata.getD k 0 = f (s.data.getD k 0)) :
    ({ s with data := newdata } : MatrixSparse α).halvesConsistent := by
  rw [MatrixSparse.halvesConsistent, rowTriples_value_map s hWFs newdata f h,
    colTriples_value_map s hWFs newdata f h]
  have hcomm : ((s.colTriples.map (fun e => (e.1, e.2.1, f e.2.2))).map swapRC) =
      (s.colTriples.map swapRC).map (fun e => (e.1, e.2.1, f e.2.2)) := by
    rw [List.map_map, List.map_map]
    apply List.map_congr_left
    intro x _
    rfl
  rw [hcomm]
  exact hc.map _

theorem halvesConsistent_multDiag (s : MatrixSparse α) (hWFs : WFState s)
    (hc : s.halvesConsistent) (d e : List α) :
    ({ s with data :=
        (multDiag d e s.m s.n s.nnz s.ord s.data s.ind s.ptr) } :
      MatrixSparse α).halvesConsistent := by
  rw [MatrixSparse.halvesConsistent, multDiag_rowTriples s hWFs d e,
    multDiag_colTriples s hWFs d e]
  have hcomm : ((s.colTriples.map (fun x =>
      (x.1, x.2.1, x.2.2 * (d.getD x.2.1 0 * e.getD x.1 0)))).map swapRC) =
      (s.colTriples.map swapRC).map (fun x =>
        (x.1, x.2.1, x.2.2 * (d.getD x.1 0 * e.getD x.2.1 0))) := by
    rw [List.map_map, List.map_map]
    apply List.map_congr_left
    intro x _
    rfl
  rw [hcomm]
  exact hc.map _

end pogs

/-! ## The claims -/

namespace pogs

/-- C1: For every initialized sparse matrix (built by Init from well-formed
compressed input) whose global normalization scalar normA is positive,
`Equil(d, e)` returns status 0 and populates d (length m) and e (length n)
such that every logical entry of the stored matrix, in both compressed
halves, has been overwritten in place by `d[row] * original_value * e[col]`
for the reported d, e (exact real arithmetic), and the kNormNormalize-norm
estimate of the resulting matrix is 1. -/
theorem equil_scaling_identity (s0 : MatrixSparse ℝ)
    (h0 : s0.done_init = false) (hWF : WFInput s0)
    (hpos : 0 < equilNormA (s0.Init).2) (d0 e0 : List ℝ) :
    ((((s0.Init).2).Equil d0 e0).1 = 0) ∧
    ((((s0.Init).2).Equil d0 e0).2.2.1.length = s0.m) ∧
    ((((s0.Init).2).Equil d0 e0).2.2.2.length = s0.n) ∧
    ((((s0.Init).2).Equil d0 e0).2.1.rowTriples =
      ((s0.Init).2).rowTriples.map (fun xx => (xx.1, xx.2.1,
        ((((s0.Init).2).Equil d0 e0).2.2.1.getD xx.1 0) * xx.2.2 *
        ((((s0.Init).2).Equil d0 e0).2.2.2.getD xx.2.1 0)))) ∧
    ((((s0.Init).2).Equil d0 e0).2.1.colTriples =
      ((s0.Init).2).colTriples.map (fun xx => (xx.1, xx.2.1,
        ((((s0.Init).2).Equil d0 e0).2.2.1.getD xx.2.1 0) * xx.2.2 *
        ((((s0.Init).2).Equil d0 e0).2.2.2.getD xx.1 0)))) ∧
    normEst kNormNormalize ((((s0.Init).2).Equil d0 e0).2.1) = some 1 := by
  obtain ⟨hst, hdone, hWFs, hrowp, hcolp⟩ := init_spec s0 h0 hWF
  obtain ⟨hm, hn, _, _, _⟩ := init_preserves s0
  have h := equil_pipeline (s0.Init).2 hdone hWFs hpos d0 e0
  exact ⟨h.1, by rw [← hm]; exact h.2.1, by rw [← hn]; exact h.2.2.1,
    h.2.2.2.1, h.2.2.2.2.1, h.2.2.2.2.2⟩

/-- Witness for C1 at the concrete 1-by-1 matrix `exMat` with value 1. -/
theorem equil_scaling_identity_witness :
    exMat.done_init = false ∧ WFInput exMat ∧
    0 < equilNormA (exMat.Init).2 ∧
    ((((exMat.Init).2).Equil [] []).1 = 0) ∧
    normEst kNormNormalize ((((exMat.Init).2).Equil [] []).2.1) = some 1 := by
  have h0 : exMat.done_init = false := rfl
  have hWF : WFInput exMat := exMat_wf
  have hpos : 0 < equilNormA (exMat.Init).2 := by
    rw [exMat_init, exS_normA]
    norm_num
  have hmain := equil_scaling_identity exMat h0 hWF hpos [] []
  exact ⟨h0, hWF, hpos, hmain.1, hmain.2.2.2.2.2⟩

/-- C2: For every initialized matrix (built by Init from well-formed input),
`Mul(trans, alpha, x, beta, y)` computes `y := alpha * op(A) * x + beta * y`
against the logical matrix A described by the caller input, where op is the
identity when trans is 'n'/'N' (x read at the column indices, y of length m)
and the transpose when trans is 't'/'T' (lengths swapped). -/
theorem mul_gemv_contract (s0 : MatrixSparse ℝ) (h0 : s0.done_init = false)
    (hWF : WFInput s0) (trans : Char) (a : ℝ) (x : List ℝ) (b : ℝ)
    (y : List ℝ) :
    ((trans = 'n' ∨ trans = 'N') →
      ((s0.Init).2).Mul trans a x b y =
        (0, (List.range s0.m).map fun i =>
          b * y.getD i 0 + a * applyTriples (inputTriples s0) x i)) ∧
    ((trans = 't' ∨ trans = 'T') →
      ((s0.Init).2).Mul trans a x b y =
        (0, (List.range s0.n).map fun j =>
          b * y.getD j 0 +
            a * applyTriples ((inputTriples s0).map swapRC) x j)) := by
  obtain ⟨hst, hdone, hWFs, hrowp, hcolp⟩ := init_spec s0 h0 hWF
  obtain ⟨hm, hn, _, _, _⟩ := init_preserves s0
  constructor
  · intro htr
    rw [mul_done_n _ hdone htr, gemvCsr_eq_applyTriples]
    have hfold : csrTriples ((s0.Init).2).csrArrays.1
        ((s0.Init).2).csrArrays.2.1 ((s0.Init).2).csrArrays.2.2
        ((s0.Init).2).m = ((s0.Init).2).rowTriples := rfl
    rw [hfold, hm]
    congr 1
    apply List.map_congr_left
    intro i _
    rw [applyTriples_perm hrowp]
  · intro htr
    have hnt : ¬ (trans = 'n' ∨ trans = 'N') := by
      rcases htr with rfl | rfl <;> decide
    rw [mul_done_t _ hdone hnt, gemvCsr_eq_applyTriples]
    have hfold : csrTriples ((s0.Init).2).cscArrays.1
        ((s0.Init).2).cscArrays.2.1 ((s0.Init).2).cscArrays.2.2
        ((s0.Init).2).n = ((s0.Init).2).colTriples := rfl
    rw [hfold, hn]
    congr 1
    apply List.map_congr_left
    intro j _
    rw [applyTriples_perm hcolp]

/-- Witness for C2 at the concrete 2-by-2 scenario matrix `exMat2`. -/
theorem mul_gemv_contract_witness :
    ((exMat2.Init).2).Mul 'n' 1 [1, 1] 0 [0, 0] =
      (0, (List.range exMat2.m).map fun i =>
        0 * [0, 0].getD i 0 +
          1 * applyTriples (inputTriples exMat2) [1, 1] i) :=
  (mul_gemv_contract exMat2 rfl exMat2_wf 'n' 1 [1, 1] 0 [0, 0]).1
    (Or.inl rfl)

/-- C3: For the specific initialized 2x2 matrix with nnz 3 built from
row-compressed values [4,2,3], offsets [0,2,3], indices [0,1,1], the call
`Mul('n', 1, [1,1], 0, y)` yields y = [6,3]. -/
theorem mul_concrete_scenario :
    (matrixSparse 'r' 2 2 3 ([4, 2, 3] : List ℝ) [0, 2, 3] [0, 1, 1]).map
      (fun A0 => ((A0.Init).2.Mul 'n' 1 [1, 1] 0 [0, 0])) =
      some (0, [6, 3]) := by
  norm_num [matrixSparse, MatrixSparse.Init, MatrixSparse.Mul,
    MatrixSparse.csrArrays, transposeHalf, csrTriples, bucketRange, gemvCsr,
    List.range_succ, List.range']

/-- C4: After Init from well-formed input, and after every in-place transform
performed by Equil, the row-compressed and column-compressed halves represent
the exact same multiset of logical (row, col, value) triples: after Init;
after the sign-extract/square stage; after the sign-restore/sqrt stage (which
restores the pre-Equil values exactly, Sinkhorn-Knopp itself reading but not
writing the value buffer); after MultDiag — which multiplies each row-half
entry by d[row]*e[col] and each column-half entry by the same d[row]*e[col]
for its logical position, for any scale vectors d, e — and after the global
renormalization. -/
theorem dual_storage_invariant (s0 : MatrixSparse ℝ)
    (h0 : s0.done_init = false) (hWF : WFInput s0) (d e : List ℝ) :
    ((s0.Init).2).halvesConsistent ∧
    ({ (s0.Init).2 with data := equilData1 (s0.Init).2 } :
      MatrixSparse ℝ).halvesConsistent ∧
    equilData2 (s0.Init).2 = ((s0.Init).2).data ∧
    (({ (s0.Init).2 with data := (multDiag d e ((s0.Init).2).m
        ((s0.Init).2).n ((s0.Init).2).nnz ((s0.Init).2).ord
        ((s0.Init).2).data ((s0.Init).2).ind ((s0.Init).2).ptr) } :
      MatrixSparse ℝ).rowTriples =
      ((s0.Init).2).rowTriples.map (fun xx => (xx.1, xx.2.1,
        xx.2.2 * (d.getD xx.1 0 * e.getD xx.2.1 0)))) ∧
    (({ (s0.Init).2 with data := (multDiag d e ((s0.Init).2).m
        ((s0.Init).2).n ((s0.Init).2).nnz ((s0.Init).2).ord
        ((s0.Init).2).data ((s0.Init).2).ind ((s0.Init).2).ptr) } :
      MatrixSparse ℝ).colTriples =
      ((s0.Init).2).colTriples.map (fun xx => (xx.1, xx.2.1,
        xx.2.2 * (d.getD xx.2.1 0 * e.getD xx.1 0)))) ∧
    ({ (s0.Init).2 with data := (multDiag d e ((s0.Init).2).m
        ((s0.Init).2).n ((s0.Init).2).nnz ((s0.Init).2).ord
        ((s0.Init).2).data ((s0.Init).2).ind ((s0.Init).2).ptr) } :
      MatrixSparse ℝ).halvesConsistent ∧
    ({ (s0.Init).2 with data := ((equilData3 (s0.Init).2).map
        (fun v => v * (1 / equilNormA (s0.Init).2))) } :
      MatrixSparse ℝ).halvesConsistent := by
  obtain ⟨hst, hdone, hWFs, hrowp, hcolp⟩ := init_spec s0 h0 hWF
  have hc1 : ((s0.Init).2).halvesConsistent :=
    halvesConsistent_of_perms hrowp hcolp
  have hext : ∀ k < 2 * ((s0.Init).2).nnz,
      (equilData1 (s0.Init).2).getD k 0 =
        SquareF |((s0.Init).2).data.getD k 0| := by
    intro k hk
    rw [equilData1_eq]
    exact setSignDataFull_getD SquareF _ _ k hWFs.data_len hk
  have hc2 := halvesConsistent_value_map (s0.Init).2 hWFs hc1
    (equilData1 (s0.Init).2) (fun v => SquareF |v|) hext
  have hc3 : equilData2 (s0.Init).2 = ((s0.Init).2).data :=
    equilData2_eq_data _ hWFs.data_len
  have hc6 := halvesConsistent_multDiag (s0.Init).2 hWFs hc1 d e
  have hlen3 : (equilData3 (s0.Init).2).length = 2 * ((s0.Init).2).nnz := by
    rw [equilData3, hc3]
    exact multDiag_length _ hWFs _ _
  have hWF3 : WFState ({ (s0.Init).2 with
      data := equilData3 (s0.Init).2 } : MatrixSparse ℝ) :=
    WFState_set_data _ hWFs _ (by rw [hlen3, hWFs.data_len])
  have hc3s : ({ (s0.Init).2 with data := equilData3 (s0.Init).2 } :
      MatrixSparse ℝ).halvesConsistent := by
    have heq : ({ (s0.Init).2 with data := equilData3 (s0.Init).2 } :
        MatrixSparse ℝ) =
        { (s0.Init).2 with data := (multDiag (equilD2E2 (s0.Init).2).1
          (equilD2E2 (s0.Init).2).2 ((s0.Init).2).m ((s0.Init).2).n
          ((s0.Init).2).nnz ((s0.Init).2).ord ((s0.Init).2).data
          ((s0.Init).2).ind ((s0.Init).2).ptr) } := by
      rw [equilData3, hc3]
    rw [heq]
    exact halvesConsistent_multDiag (s0.Init).2 hWFs hc1 _ _
  have hc7 := halvesConsistent_value_map _ hWF3 hc3s
    ((equilData3 (s0.Init).2).map
      (fun v => v * (1 / equilNormA (s0.Init).2)))
    (fun v => v * (1 / equilNormA (s0.Init).2))
    (fun k hk => getD_map_lt _ _ (by rw [hlen3]; simpa using hk) 0 0)
  exact ⟨hc1, hc2, hc3, multDiag_rowTriples _ hWFs d e,
    multDiag_colTriples _ hWFs d e, hc6, hc7⟩

/-- Witness for C4 at the concrete 2-by-2 scenario matrix `exMat2`. -/
theorem dual_storage_invariant_witness :
    ((exMat2.Init).2).halvesConsistent ∧
    equilData2 (exMat2.Init).2 = ((exMat2.Init).2).data := by
  have h := dual_storage_invariant exMat2 rfl exMat2_wf [1, 1] [1, 1]
  exact ⟨h.1, h.2.2.1⟩

/-- C5: For every real value array v of any length (multiples of 8 or not),
sign-extracting with the square transform and then restoring with the
square-root transform recovers v exactly (zero entries map to zero); the
bulk 8-entries-per-byte path combined with the element-wise tail path
transforms every entry `x` to `square(|x|)` uniformly, and every packed
sign bit (bulk bytes and tail byte alike) reads back as 1 exactly for the
negative entries. -/
theorem sign_codec_exact_roundtrip (v : List ℝ) (k : ℕ)
    (hk : k < v.length) :
    unSetSignDataFull SqrtF (signFull v v.length)
      (setSignDataFull SquareF v v.length) v.length = v ∧
    setSignDataFull SquareF v v.length = v.map (fun x => SquareF |x|) ∧
    bitOf (signFull v v.length) k = if v.getD k 0 < 0 then 1 else 0 :=
  ⟨signCodec_roundtrip v, setSignDataFull_eq_map SquareF v,
    bitOf_signFull v v.length k hk⟩

/-- Witness for C5 at v = [1, -2, 0] (length 3, entirely on the tail path). -/
theorem sign_codec_exact_roundtrip_witness :
    (2 < ([1, -2, 0] : List ℝ).length) ∧
    (unSetSignDataFull SqrtF (signFull [1, -2, 0] ([1, -2, 0] : List ℝ).length)
      (setSignDataFull SquareF [1, -2, 0] ([1, -2, 0] : List ℝ).length)
      ([1, -2, 0] : List ℝ).length = [1, -2, 0]) ∧
    bitOf (signFull [1, -2, 0] ([1, -2, 0] : List ℝ).length) 1 =
      if ([1, -2, 0] : List ℝ).getD 1 0 < 0 then 1 else 0 := by
  have h2 : (1 : ℕ) < ([1, -2, 0] : List ℝ).length := by norm_num
  have h := sign_codec_exact_roundtrip [1, -2, 0] 1 h2
  exact ⟨by norm_num, h.1, h.2.2⟩

/-- C6: NormEst with a Frobenius request returns the 2-norm
(square-root-of-sum-of-squares) of the first nnz entries of the value buffer
divided by sqrt(min(rows, cols)); for a row-major matrix those first nnz
entries are the row-compressed half. -/
theorem normest_fro_formula (s : MatrixSparse ℝ) (h : s.ord = SpOrd.ROW) :
    normEst NormTypes.kNormFro s =
      some (Real.sqrt (((s.data.take s.nnz).map fun x => x * x).sum) /
        Real.sqrt ((min s.m s.n : ℕ) : ℝ)) ∧
    s.data.take s.nnz = s.csrArrays.1 := by
  constructor
  · rfl
  · simp [MatrixSparse.csrArrays, h]

/-- Witness for C6 at the concrete initialized matrix `exS`. -/
theorem normest_fro_formula_witness :
    normEst NormTypes.kNormFro exS =
      some (Real.sqrt (((exS.data.take exS.nnz).map fun x => x * x).sum) /
        Real.sqrt ((min exS.m exS.n : ℕ) : ℝ)) ∧
    exS.data.take exS.nnz = exS.csrArrays.1 :=
  normest_fro_formula exS rfl

/-- C7: Requesting the 1-norm (the only norm kind besides the 2-norm and
Frobenius) from the norm-estimation step is rejected as unsupported: NormEst
hits its failing assertion and returns no usable estimate, modelled as
`none`. -/
theorem normest_norm1_rejected (s : MatrixSparse ℝ) :
    normEst NormTypes.kNorm1 s = none := rfl

/-- C8: Usage-sequence errors return the non-fatal status code 1 and abort
with no mutation: Init on an already-initialized matrix returns 1 and leaves
the state exactly as it was; Mul before Init returns 1 with y untouched;
Equil before Init returns 1 with the state, d and e untouched. -/
theorem usage_sequence_errors (s1 s2 : MatrixSparse ℝ)
    (h1 : s1.done_init = true) (h2 : s2.done_init = false) (trans : Char)
    (a : ℝ) (x : List ℝ) (b : ℝ) (y d e : List ℝ) :
    s1.Init = (1, s1) ∧
    s2.Mul trans a x b y = (1, y) ∧
    s2.Equil d e = (1, s2, d, e) := by
  refine ⟨?_, ?_, ?_⟩
  · rw [MatrixSparse.Init, if_pos h1]
  · rw [MatrixSparse.Mul, h2]
    rfl
  · rw [MatrixSparse.Equil, h2]
    rfl

/-- Witness for C8: double Init on `exS`, pre-Init Mul and Equil on `exMat`. -/
theorem usage_sequence_errors_witness :
    exS.Init = (1, exS) ∧ exMat.Mul 'n' 1 [1] 0 [0] = (1, [0]) ∧
    exMat.Equil [0] [0] = (1, exMat, [0], [0]) :=
  usage_sequence_errors exS exMat rfl rfl 'n' 1 [1] 0 [0] [0] [0]

/-- C9: Constructing a matrix with a malformed orientation tag (anything other
than 'r', 'R', 'c', 'C') is rejected outright — the assertion on the tag,
fatal in debug builds, rejects the call per spec §7b — and the constructor
does not proceed with an arbitrary orientation. -/
theorem constructor_rejects_bad_ord (c : Char) (m n nnz : ℕ)
    (data : List ℝ) (ptr ind : List ℕ)
    (h : ¬ (c = 'r' ∨ c = 'R' ∨ c = 'c' ∨ c = 'C')) :
    matrixSparse c m n nnz data ptr ind = none := by
  rw [matrixSparse, if_neg h]

/-- Witness for C9 at the malformed tag 'x'. -/
theorem constructor_rejects_bad_ord_witness :
    matrixSparse 'x' 1 1 1 ([1] : List ℝ) [0, 1] [0] = none :=
  constructor_rejects_bad_ord 'x' 1 1 1 [1] [0, 1] [0] (by decide)

/-- C10: The equilibration norm is fixed at compile time to the 2-norm and
the normalization norm to Frobenius; consequently, in every execution of
Equil the sign extraction applies the square transform, the sign restoration
applies the square-root transform, and d and e are elementwise square-rooted
before MultDiag — the absolute-value/identity (1-norm style) branches are
never taken. -/
theorem equil_norm_constants_paths :
    kNormEquilibrate = NormTypes.kNorm2 ∧
    kNormNormalize = NormTypes.kNormFro ∧
    (∀ s : MatrixSparse ℝ,
      equilData1 s = setSignDataFull SquareF s.data (2 * s.nnz)) ∧
    (∀ s : MatrixSparse ℝ,
      equilData2 s =
        unSetSignDataFull SqrtF (equilSign s) (equilData1 s) (2 * s.nnz)) ∧
    (∀ s : MatrixSparse ℝ,
      equilD2E2 s =
        ((sinkhornKnopp { s with data := equilData1 s }).1.map SqrtF,
         (sinkhornKnopp { s with data := equilData1 s }).2.map SqrtF)) := by
  refine ⟨rfl, rfl, equilData1_eq, fun s => ?_, equilD2E2_eq⟩
  rw [equilData2, if_pos kNormEquilibrate_branch]

end pogs
